import Mathlib

/-!
# Verification of the flexible-shared-memory core

A shallow embedding of `flexible_shared_memory/shared_memory.py`.

The shared region is modelled as a `List Nat` of bytes (each entry `< 256`).
Machine integers are `Nat`/`Int` with explicit `% 2^w` where the source relies
on fixed width.  Floating-point values are modelled by their 64-bit patterns:
the source stores a Python float by copying its IEEE-754 binary64 image into
the buffer and reads it back bit-for-bit, so at the byte level the data path
is exactly an 8-byte little-endian word transfer.  Likewise numeric array
elements are modelled by their `itemsize`-byte patterns.

Time (`timeout`, sleep-poll loops) is not modelled: every read is taken at a
quiescent state, where the source's retry loop performs a single attempt; a
torn read (which the source would retry) is returned as `none`.
-/

namespace FlexShm

/-! ## Byte buffer primitives

The Python side accesses `self.shm.buf` (a memoryview) with slice reads,
slice writes and single-byte writes.  We model the buffer as a `List Nat` and
the accesses with `take`/`drop` arithmetic.  Python slice reads clamp at the
end of the buffer; `List.take`/`List.drop` clamp the same way.  A slice
*write* past the end would raise in Python; all writes performed by the model
are proved (or evaluated) in bounds. -/

/-- Read `len` bytes starting at `off` (clamping at the end, as Python slicing does). -/
def readBytes (buf : List Nat) (off len : Nat) : List Nat :=
  (buf.drop off).take len

/-- Write the byte list `bs` at offset `off`, leaving all other bytes unchanged. -/
def writeBytes (buf : List Nat) (off : Nat) (bs : List Nat) : List Nat :=
  buf.take off ++ bs ++ buf.drop (off + bs.length)

/-- Write a single byte (`buf[off] = b` in the source). -/
def writeByte (buf : List Nat) (off : Nat) (b : Nat) : List Nat :=
  writeBytes buf off [b]

/-- Read a single byte (`buf[off]` in the source); 0 past the end. -/
def readByte (buf : List Nat) (off : Nat) : Nat :=
  (readBytes buf off 1).headD 0

theorem writeBytes_length (buf : List Nat) (off : Nat) (bs : List Nat)
    (h : off + bs.length ≤ buf.length) :
    (writeBytes buf off bs).length = buf.length := by
  simp only [writeBytes, List.length_append, List.length_take, List.length_drop]
  omega

theorem readBytes_writeBytes_self (buf : List Nat) (off : Nat) (bs : List Nat)
    (h : off + bs.length ≤ buf.length) :
    readBytes (writeBytes buf off bs) off bs.length = bs := by
  unfold readBytes writeBytes
  rw [List.append_assoc]
  rw [@List.drop_left' _ (buf.take off) _ off
    (by simp only [List.length_take]; omega)]
  rw [List.take_left' rfl]

theorem readBytes_writeBytes_left (buf : List Nat) (off : Nat) (bs : List Nat)
    (off2 len2 : Nat) (h : off2 + len2 ≤ off) (hb : off ≤ buf.length) :
    readBytes (writeBytes buf off bs) off2 len2 = readBytes buf off2 len2 := by
  unfold readBytes writeBytes
  rw [List.append_assoc]
  have hlen : (buf.take off).length = off := by
    simp only [List.length_take]; omega
  rw [List.drop_append_eq_append_drop, List.take_append_eq_append_take]
  have h1 : (buf.take off |>.drop off2).length = off - off2 := by
    simp only [List.length_drop, List.length_take]; omega
  have h2 : len2 - (buf.take off |>.drop off2).length = 0 := by
    rw [h1]; omega
  rw [h2, List.take_zero, List.append_nil]
  rw [List.drop_take, List.take_take]
  congr 1
  omega

theorem readBytes_writeBytes_right (buf : List Nat) (off : Nat) (bs : List Nat)
    (off2 len2 : Nat) (h : off + bs.length ≤ off2) (hb : off ≤ buf.length) :
    readBytes (writeBytes buf off bs) off2 len2 = readBytes buf off2 len2 := by
  unfold readBytes writeBytes
  have h1 : buf.take off ++ bs ++ buf.drop (off + bs.length)
      = (buf.take off ++ bs) ++ buf.drop (off + bs.length) := by simp
  rw [h1, List.drop_append_eq_append_drop]
  have h2 : (buf.take off ++ bs).length = off + bs.length := by
    simp only [List.length_append, List.length_take]
    omega
  rw [h2]
  have h3 : (buf.take off ++ bs).drop off2 = [] := by
    apply List.drop_eq_nil_of_le
    rw [h2]; omega
  rw [h3, List.nil_append, List.drop_drop]
  congr 2
  omega

theorem readByte_writeBytes_left (buf : List Nat) (off : Nat) (bs : List Nat)
    (off2 : Nat) (h : off2 + 1 ≤ off) (hb : off ≤ buf.length) :
    readByte (writeBytes buf off bs) off2 = readByte buf off2 := by
  unfold readByte
  rw [readBytes_writeBytes_left buf off bs off2 1 h hb]

theorem readByte_writeBytes_right (buf : List Nat) (off : Nat) (bs : List Nat)
    (off2 : Nat) (h : off + bs.length ≤ off2) (hb : off ≤ buf.length) :
    readByte (writeBytes buf off bs) off2 = readByte buf off2 := by
  unfold readByte
  rw [readBytes_writeBytes_right buf off bs off2 1 h hb]

theorem readByte_writeByte_self (buf : List Nat) (off b : Nat)
    (h : off + 1 ≤ buf.length) :
    readByte (writeByte buf off b) off = b := by
  unfold readByte writeByte
  have := readBytes_writeBytes_self buf off [b] (by simpa using h)
  simp only [List.length_singleton] at this
  rw [this]
  rfl

/-! ## Little-endian integers

`value.to_bytes(len, 'little')` / `int.from_bytes(..., 'little')`.
`to_bytes` raises `OverflowError` when `value ≥ 256^len`; the model reduces
modulo instead (no operation in the claims approaches the bound: the sequence
and ring counters start at 0 and are only ever incremented). -/

def natToBytesLE : Nat → Nat → List Nat
  | 0, _ => []
  | n + 1, v => (v % 256) :: natToBytesLE n (v / 256)

def bytesToNatLE : List Nat → Nat
  | [] => 0
  | b :: bs => b + 256 * bytesToNatLE bs

theorem natToBytesLE_length (len v : Nat) : (natToBytesLE len v).length = len := by
  induction len generalizing v with
  | zero => rfl
  | succ n ih => simp [natToBytesLE, ih]

theorem bytesToNatLE_natToBytesLE (len v : Nat) :
    bytesToNatLE (natToBytesLE len v) = v % 256 ^ len := by
  induction len generalizing v with
  | zero => simp [natToBytesLE, bytesToNatLE, Nat.mod_one]
  | succ n ih =>
    simp only [natToBytesLE, bytesToNatLE, ih]
    rw [pow_succ', Nat.mod_mul]

theorem natToBytesLE_lt (len v : Nat) : ∀ b ∈ natToBytesLE len v, b < 256 := by
  induction len generalizing v with
  | zero => simp [natToBytesLE]
  | succ n ih =>
    intro b hb
    simp only [natToBytesLE, List.mem_cons] at hb
    rcases hb with h | h
    · omega
    · exact ih _ b h

/-- `self._read_uint64(offset)` (shared_memory.py line 661). -/
def readU64 (buf : List Nat) (off : Nat) : Nat :=
  bytesToNatLE (readBytes buf off 8)

/-- `self._write_uint64(offset, value)` (line 665). -/
def writeU64 (buf : List Nat) (off v : Nat) : List Nat :=
  writeBytes buf off (natToBytesLE 8 v)

/-- `self._read_uint32(offset)` (line 669). -/
def readU32 (buf : List Nat) (off : Nat) : Nat :=
  bytesToNatLE (readBytes buf off 4)

/-- `self._write_uint32(offset, value)` (line 673). -/
def writeU32 (buf : List Nat) (off v : Nat) : List Nat :=
  writeBytes buf off (natToBytesLE 4 v)

theorem readBytes_writeBytes_eq_len (buf : List Nat) (off : Nat) (bs : List Nat)
    (len : Nat) (hlen : bs.length = len) (h : off + len ≤ buf.length) :
    readBytes (writeBytes buf off bs) off len = bs := by
  subst hlen
  exact readBytes_writeBytes_self buf off bs h

theorem readU64_writeU64_self (buf : List Nat) (off v : Nat)
    (h : off + 8 ≤ buf.length) :
    readU64 (writeU64 buf off v) off = v % 2 ^ 64 := by
  unfold readU64 writeU64
  rw [readBytes_writeBytes_eq_len buf off _ 8 (natToBytesLE_length 8 v) h]
  rw [bytesToNatLE_natToBytesLE]
  norm_num

/-! ## UTF-8

`str.encode('utf-8')` and `bytes.decode('utf-8', errors='ignore')`.
Strings are modelled as lists of code points.  A code point is encodable iff
it is a Unicode scalar value (CPython's encoder raises on surrogates). -/

/-- Unicode scalar value: encodable by `str.encode('utf-8')`. -/
def IsScalarValue (c : Nat) : Prop :=
  c < 0x110000 ∧ ¬(0xD800 ≤ c ∧ c ≤ 0xDFFF)

instance (c : Nat) : Decidable (IsScalarValue c) := by
  unfold IsScalarValue; infer_instance

/-- UTF-8 encoding of one scalar value. -/
def encodeCp (c : Nat) : List Nat :=
  if c < 0x80 then [c]
  else if c < 0x800 then [0xC0 + c / 64, 0x80 + c % 64]
  else if c < 0x10000 then
    [0xE0 + c / 4096, 0x80 + c / 64 % 64, 0x80 + c % 64]
  else
    [0xF0 + c / 262144, 0x80 + c / 4096 % 64, 0x80 + c / 64 % 64, 0x80 + c % 64]

/-- `s.encode('utf-8')` over the code points of `s`. -/
def utf8Encode (cps : List Nat) : List Nat :=
  cps.flatMap encodeCp

/-- UTF-8 continuation byte. -/
def isCont (b : Nat) : Bool :=
  0x80 ≤ b && b ≤ 0xBF

/-- Valid second byte after a 3-byte lead (E0 needs A0..BF, ED needs 80..9F). -/
def isCont3 (lead b : Nat) : Bool :=
  if lead = 0xE0 then 0xA0 ≤ b && b ≤ 0xBF
  else if lead = 0xED then 0x80 ≤ b && b ≤ 0x9F
  else isCont b

/-- Valid second byte after a 4-byte lead (F0 needs 90..BF, F4 needs 80..8F). -/
def isCont4 (lead b : Nat) : Bool :=
  if lead = 0xF0 then 0x90 ≤ b && b ≤ 0xBF
  else if lead = 0xF4 then 0x80 ≤ b && b ≤ 0x8F
  else isCont b

/-- One step of CPython's UTF-8 decoder with the `ignore` handler, given the
lead byte `b` and the remaining bytes: the code points produced (none for an
invalid maximal subpart, which `ignore` drops) and the total number of bytes
consumed (at least 1; a sequence truncated by the end of input consumes the
whole input, which `ignore` likewise drops). -/
def utf8Step (b : Nat) (rest : List Nat) : List Nat × Nat :=
  if b < 0x80 then ([b], 1)
  else if 0xC2 ≤ b ∧ b ≤ 0xDF then
    match rest with
    | [] => ([], 1)
    | b1 :: _ =>
      if isCont b1 then ([(b - 0xC0) * 64 + (b1 - 0x80)], 2) else ([], 1)
  else if 0xE0 ≤ b ∧ b ≤ 0xEF then
    match rest with
    | [] => ([], 1)
    | b1 :: rest1 =>
      if isCont3 b b1 then
        match rest1 with
        | [] => ([], rest.length + 1)
        | b2 :: _ =>
          if isCont b2 then
            ([(b - 0xE0) * 4096 + (b1 - 0x80) * 64 + (b2 - 0x80)], 3)
          else ([], 2)
      else ([], 1)
  else if 0xF0 ≤ b ∧ b ≤ 0xF4 then
    match rest with
    | [] => ([], 1)
    | b1 :: rest1 =>
      if isCont4 b b1 then
        match rest1 with
        | [] => ([], rest.length + 1)
        | b2 :: rest2 =>
          if isCont b2 then
            match rest2 with
            | [] => ([], rest.length + 1)
            | b3 :: _ =>
              if isCont b3 then
                ([(b - 0xF0) * 262144 + (b1 - 0x80) * 4096 +
                   (b2 - 0x80) * 64 + (b3 - 0x80)], 4)
              else ([], 3)
          else ([], 2)
      else ([], 1)
  else ([], 1)

/-- Decoder worker.  The fuel argument (initially the byte count, an upper
bound on the step count since every step consumes at least one byte) only
serves to make the recursion structural. -/
def utf8DecodeIgnoreF : Nat → List Nat → List Nat
  | 0, _ => []
  | _ + 1, [] => []
  | fuel + 1, b :: rest =>
    (utf8Step b rest).1 ++
      utf8DecodeIgnoreF fuel (rest.drop ((utf8Step b rest).2 - 1))

/-- `bytes.decode('utf-8', errors='ignore')`: CPython's decoder with the
`ignore` handler drops each maximal invalid subpart and continues. -/
def utf8DecodeIgnore (l : List Nat) : List Nat :=
  utf8DecodeIgnoreF l.length l

theorem utf8DecodeIgnoreF_fuel : ∀ (f1 : Nat) (f2 : Nat) (l : List Nat),
    l.length ≤ f1 → l.length ≤ f2 →
    utf8DecodeIgnoreF f1 l = utf8DecodeIgnoreF f2 l := by
  intro f1
  induction f1 with
  | zero =>
    intro f2 l h1 _
    have hl : l = [] := List.eq_nil_of_length_eq_zero (by omega)
    subst hl
    cases f2 <;> rfl
  | succ n ih =>
    intro f2 l h1 h2
    cases l with
    | nil => cases f2 <;> rfl
    | cons b rest =>
      cases f2 with
      | zero => simp at h2
      | succ m =>
        simp only [utf8DecodeIgnoreF]
        congr 1
        apply ih
        · have := List.length_drop ((utf8Step b rest).2 - 1) rest
          simp only [List.length_cons] at h1
          omega
        · have := List.length_drop ((utf8Step b rest).2 - 1) rest
          simp only [List.length_cons] at h2
          omega

theorem utf8Step_ascii (b : Nat) (h : b < 0x80) (rest : List Nat) :
    utf8Step b rest = ([b], 1) := by
  unfold utf8Step
  rw [if_pos h]

theorem utf8Step_two (b b1 : Nat) (h : 0xC2 ≤ b ∧ b ≤ 0xDF)
    (h1 : isCont b1 = true) (l : List Nat) :
    utf8Step b (b1 :: l) = ([(b - 0xC0) * 64 + (b1 - 0x80)], 2) := by
  unfold utf8Step
  rw [if_neg (by omega), if_pos h]
  simp only [h1, if_pos]

theorem utf8Step_three (b b1 b2 : Nat) (h : 0xE0 ≤ b ∧ b ≤ 0xEF)
    (h1 : isCont3 b b1 = true) (h2 : isCont b2 = true) (l : List Nat) :
    utf8Step b (b1 :: b2 :: l)
      = ([(b - 0xE0) * 4096 + (b1 - 0x80) * 64 + (b2 - 0x80)], 3) := by
  unfold utf8Step
  rw [if_neg (by omega), if_neg (by omega), if_pos h]
  simp only [h1, h2, if_pos]

theorem utf8Step_four (b b1 b2 b3 : Nat) (h : 0xF0 ≤ b ∧ b ≤ 0xF4)
    (h1 : isCont4 b b1 = true) (h2 : isCont b2 = true) (h3 : isCont b3 = true)
    (l : List Nat) :
    utf8Step b (b1 :: b2 :: b3 :: l)
      = ([(b - 0xF0) * 262144 + (b1 - 0x80) * 4096 + (b2 - 0x80) * 64 +
           (b3 - 0x80)], 4) := by
  unfold utf8Step
  rw [if_neg (by omega), if_neg (by omega), if_neg (by omega), if_pos h]
  simp only [h1, h2, h3, if_pos]

theorem utf8DecodeIgnore_ascii (b : Nat) (h : b < 0x80) (l : List Nat) :
    utf8DecodeIgnore (b :: l) = b :: utf8DecodeIgnore l := by
  unfold utf8DecodeIgnore
  simp only [List.length_cons, utf8DecodeIgnoreF, utf8Step_ascii b h l]
  simp

theorem utf8DecodeIgnore_two (b b1 : Nat) (h : 0xC2 ≤ b ∧ b ≤ 0xDF)
    (h1 : isCont b1 = true) (l : List Nat) :
    utf8DecodeIgnore (b :: b1 :: l)
      = ((b - 0xC0) * 64 + (b1 - 0x80)) :: utf8DecodeIgnore l := by
  unfold utf8DecodeIgnore
  simp only [List.length_cons, utf8DecodeIgnoreF, utf8Step_two b b1 h h1 l]
  simp only [List.singleton_append, List.cons.injEq, true_and]
  simp only [show (2 : Nat) - 1 = 1 from rfl, List.drop_one, List.tail_cons]
  exact utf8DecodeIgnoreF_fuel _ _ l (by omega) le_rfl

theorem utf8DecodeIgnore_three (b b1 b2 : Nat) (h : 0xE0 ≤ b ∧ b ≤ 0xEF)
    (h1 : isCont3 b b1 = true) (h2 : isCont b2 = true) (l : List Nat) :
    utf8DecodeIgnore (b :: b1 :: b2 :: l)
      = ((b - 0xE0) * 4096 + (b1 - 0x80) * 64 + (b2 - 0x80)) ::
          utf8DecodeIgnore l := by
  unfold utf8DecodeIgnore
  simp only [List.length_cons, utf8DecodeIgnoreF, utf8Step_three b b1 b2 h h1 h2 l]
  simp only [List.singleton_append, List.cons.injEq, true_and]
  simp only [show (3 : Nat) - 1 = 2 from rfl]
  simp only [List.drop_succ_cons, List.drop_one, List.tail_cons]
  exact utf8DecodeIgnoreF_fuel _ _ l (by omega) le_rfl

theorem utf8DecodeIgnore_four (b b1 b2 b3 : Nat) (h : 0xF0 ≤ b ∧ b ≤ 0xF4)
    (h1 : isCont4 b b1 = true) (h2 : isCont b2 = true) (h3 : isCont b3 = true)
    (l : List Nat) :
    utf8DecodeIgnore (b :: b1 :: b2 :: b3 :: l)
      = ((b - 0xF0) * 262144 + (b1 - 0x80) * 4096 + (b2 - 0x80) * 64 +
          (b3 - 0x80)) :: utf8DecodeIgnore l := by
  unfold utf8DecodeIgnore
  simp only [List.length_cons, utf8DecodeIgnoreF,
    utf8Step_four b b1 b2 b3 h h1 h2 h3 l]
  simp only [List.singleton_append, List.cons.injEq, true_and]
  simp only [show (4 : Nat) - 1 = 3 from rfl]
  simp only [List.drop_succ_cons, List.drop_one, List.tail_cons]
  exact utf8DecodeIgnoreF_fuel _ _ l (by omega) le_rfl

theorem utf8DecodeIgnore_encodeCp (c : Nat) (hc : IsScalarValue c)
    (rest : List Nat) :
    utf8DecodeIgnore (encodeCp c ++ rest) = c :: utf8DecodeIgnore rest := by
  obtain ⟨hlt, hsur⟩ := hc
  unfold encodeCp
  by_cases h1 : c < 0x80
  · rw [if_pos h1]
    simpa using utf8DecodeIgnore_ascii c h1 rest
  by_cases h2 : c < 0x800
  · rw [if_neg h1, if_pos h2]
    simp only [List.cons_append, List.nil_append]
    rw [utf8DecodeIgnore_two _ _ (by omega) (by unfold isCont; simp; omega)]
    simp only [List.cons.injEq]
    exact ⟨by omega, trivial⟩
  by_cases h3 : c < 0x10000
  · rw [if_neg h1, if_neg h2, if_pos h3]
    simp only [List.cons_append, List.nil_append]
    rw [utf8DecodeIgnore_three _ _ _ (by omega)
      (by unfold isCont3 isCont; split
          · simp; omega
          · split
            · simp
              omega
            · simp
              omega)
      (by unfold isCont; simp; omega)]
    simp only [List.cons.injEq]
    exact ⟨by omega, trivial⟩
  · rw [if_neg h1, if_neg h2, if_neg h3]
    simp only [List.cons_append, List.nil_append]
    rw [utf8DecodeIgnore_four _ _ _ _ (by omega)
      (by unfold isCont4 isCont; split
          · simp; omega
          · split
            · simp
              omega
            · simp
              omega)
      (by unfold isCont; simp; omega) (by unfold isCont; simp; omega)]
    simp only [List.cons.injEq]
    exact ⟨by omega, trivial⟩

/-- Round trip of the codec on well-formed text: decoding an encoding
recovers the code points exactly (the `ignore` handler never fires). -/
theorem utf8DecodeIgnore_utf8Encode (cps : List Nat)
    (h : ∀ c ∈ cps, IsScalarValue c) :
    utf8DecodeIgnore (utf8Encode cps) = cps := by
  induction cps with
  | nil => rfl
  | cons c cs ih =>
    simp only [utf8Encode, List.flatMap_cons] at *
    rw [utf8DecodeIgnore_encodeCp c (h c (by simp))]
    rw [ih (fun x hx => h x (by simp [hx]))]

/-! ## Schema: field kinds and sizes (`_FieldInfo`) -/

/-- numpy dtypes reachable through the array annotation parser. -/
inductive Dtype
  | f32 | f64 | i8 | i16 | i32 | i64 | u8 | u16 | u32 | u64 | boolD
deriving DecidableEq, Repr

def Dtype.itemsize : Dtype → Nat
  | .f32 => 4 | .f64 => 8
  | .i8 => 1 | .i16 => 2 | .i32 => 4 | .i64 => 8
  | .u8 => 1 | .u16 => 2 | .u32 => 4 | .u64 => 8
  | .boolD => 1

/-- Scalar field types (`float`/`int`/`bool` annotations). -/
inductive ScalarTy
  | f64 | i32 | boolS
deriving DecidableEq, Repr

/-- `type_sizes` in `_FieldInfo._parse_type` (lines 1018-1022). -/
def ScalarTy.size : ScalarTy → Nat
  | .f64 => 8 | .i32 => 4 | .boolS => 1

inductive FieldKind
  | scalar (t : ScalarTy)
  | string (maxChars : Nat)
  | array (dtype : Dtype) (shape : List Nat)
deriving DecidableEq, Repr

/-- `_FieldInfo.size` as assigned in `_parse_type` (lines 1006, 1014, 1026). -/
def FieldKind.size : FieldKind → Nat
  | .scalar t => t.size
  | .string n => 4 + n * 4
  | .array d s => s.prod * d.itemsize

/-! ## Annotation parsing (`_AnnotationParser`, lines 1032-1069)

The source runs anchored regex prefix matches (`re.match`) over
`str(field.type)`.  A dataclass field annotated with a plain type has
`field.type` equal to the type object, whose `str()` form begins with `<` and
matches neither pattern; a string annotation is the literal string. -/

/-- A dataclass field's `field.type`: a real type object or a string annotation.
The `str()` image of a type object (`<class ...>`) starts with `<`; the
apostrophes of the CPython repr are omitted here — no character after `<`
can begin a match of either anchored pattern, so the image is interchangeable. -/
inductive PyType
  | pyFloat | pyInt | pyBool
  | ann (s : String)
deriving DecidableEq, Repr

def pyTypeStr : PyType → String
  | .pyFloat => "<class float>"
  | .pyInt => "<class int>"
  | .pyBool => "<class bool>"
  | .ann s => s

/-- Greedy `\d+`-style scan: leading digits and the rest. -/
def takeDigits : List Char → List Char × List Char
  | [] => ([], [])
  | c :: cs =>
    if c.isDigit then
      let (d, r) := takeDigits cs
      (c :: d, r)
    else ([], c :: cs)

/-- Greedy `[\d,]+`-style scan. -/
def takeDigitComma : List Char → List Char × List Char
  | [] => ([], [])
  | c :: cs =>
    if c.isDigit ∨ c = ',' then
      let (d, r) := takeDigitComma cs
      (c :: d, r)
    else ([], c :: cs)

def digitsToNat (ds : List Char) : Nat :=
  ds.foldl (fun a c => a * 10 + (c.toNat - 48)) 0

/-- `_AnnotationParser.parse_string`: anchored prefix match of
`str\x7b`[`\x7d(\d+)\x7b`]`\x7d` — `re.match` does not require the match to
reach the end of the string. -/
def parseStringAnn : List Char → Option Nat
  | 's' :: 't' :: 'r' :: '[' :: rest =>
    match takeDigits rest with
    | ([], _) => none
    | (ds, r) =>
      match r with
      | ']' :: _ => some (digitsToNat ds)
      | _ => none
  | _ => none

/-- The ordered alternation `(float\d+|int\d+|uint\d+|bool)` at the start of
the annotation; yields the matched token and the rest. -/
def matchDtypeToken : List Char → Option (String × List Char)
  | 'f' :: 'l' :: 'o' :: 'a' :: 't' :: rest =>
    match takeDigits rest with
    | ([], _) => none
    | (ds, r) => some ("float" ++ String.mk ds, r)
  | 'i' :: 'n' :: 't' :: rest =>
    match takeDigits rest with
    | ([], _) => none
    | (ds, r) => some ("int" ++ String.mk ds, r)
  | 'u' :: 'i' :: 'n' :: 't' :: rest =>
    match takeDigits rest with
    | ([], _) => none
    | (ds, r) => some ("uint" ++ String.mk ds, r)
  | 'b' :: 'o' :: 'o' :: 'l' :: rest => some ("bool", rest)
  | _ => none

/-- `dtype_map.get(dtype_str, np.float64)` (lines 1051-1064): tokens matched
by the pattern but missing from the map (e.g. `float16`) default to float64. -/
def dtypeOf (s : String) : Dtype :=
  if s = "float32" then .f32
  else if s = "float64" then .f64
  else if s = "int8" then .i8
  else if s = "int16" then .i16
  else if s = "int32" then .i32
  else if s = "int64" then .i64
  else if s = "uint8" then .u8
  else if s = "uint16" then .u16
  else if s = "uint32" then .u32
  else if s = "uint64" then .u64
  else if s = "bool" then .boolD
  else .f64

/-- Split the shape body on commas (`shape_str.split(",")`). -/
def splitCommas (l : List Char) : List (List Char) :=
  match l with
  | [] => [[]]
  | c :: cs =>
    let r := splitCommas cs
    if c = ',' then [] :: r
    else
      match r with
      | [] => [[c]]
      | chunk :: rest => (c :: chunk) :: rest

/-- `int(x)` over a chunk of `[\d,]`-matched text: `int("")` raises. -/
def chunkToNat (l : List Char) : Option Nat :=
  if l.isEmpty then none else some (digitsToNat l)

/-- Outcome of `_AnnotationParser.parse_array`. -/
inductive ParseArrayResult
  | noMatch
  | raised
  | ok (d : Dtype) (shape : List Nat)
deriving DecidableEq, Repr

/-- `parse_array` (lines 1041-1069): anchored match of
`(float\d+|int\d+|uint\d+|bool)\x7b`[`\x7d([\d,]+)\x7b`]`\x7d`; on a match the
shape text is split on commas and each chunk passed to `int`, which raises on
an empty chunk (`raised`). -/
def parseArrayAnn (l : List Char) : ParseArrayResult :=
  match matchDtypeToken l with
  | none => .noMatch
  | some (tok, rest) =>
    match rest with
    | '[' :: body =>
      match takeDigitComma body with
      | ([], _) => .noMatch
      | (ds, r) =>
        match r with
        | ']' :: _ =>
          match (splitCommas ds).mapM chunkToNat with
          | none => .raised
          | some shape => .ok (dtypeOf tok) shape
        | _ => .noMatch
    | _ => .noMatch

/-- Scalar/array tail of `_FieldInfo._parse_type` (lines 1009-1029), reached
when the string branch was not taken; `none` models the raised error. -/
def parseTypeTail (t : PyType) : Option FieldKind :=
  match parseArrayAnn (pyTypeStr t).toList with
  | .ok d shape => some (.array d shape)
  | .raised => none
  | .noMatch =>
    match t with
    | .pyFloat => some (.scalar .f64)
    | .pyInt => some (.scalar .i32)
    | .pyBool => some (.scalar .boolS)
    | .ann _ => none

/-- `_FieldInfo._parse_type` (lines 996-1029).  Note the truthiness test
`if string_chars:` — a parsed `str[0]` is falsy and falls through to the
array/scalar branches. -/
def parseType (t : PyType) : Option FieldKind :=
  match parseStringAnn (pyTypeStr t).toList with
  | some n => if n ≠ 0 then some (.string n) else parseTypeTail t
  | none => parseTypeTail t

/-! ## Layout compiler (`_SharedMemoryLayout`, lines 935-975) -/

structure FieldInfo where
  name : String
  kind : FieldKind
  offset : Nat
deriving DecidableEq, Repr

/-- `(offset + 7) // 8 * 8`. -/
def pad8 (n : Nat) : Nat := (n + 7) / 8 * 8

structure Layout where
  fields : List FieldInfo
  totalSize : Nat
deriving DecidableEq, Repr

/-- The offset-assignment loop in `_calculate_layout` (lines 967-969). -/
def assignOffsets (off : Nat) : List (String × FieldKind) → List FieldInfo × Nat
  | [] => ([], off)
  | d :: rest =>
    let r := assignOffsets (off + d.2.size) rest
    (⟨d.1, d.2, off⟩ :: r.1, r.2)

/-- `_calculate_layout` (lines 956-975): header 8 + one status byte per field,
padded to 8; fields in declaration order; 8-byte footer; total padded to 8. -/
def compileLayout (decls : List (String × FieldKind)) : Layout :=
  let start := pad8 (8 + decls.length)
  let r := assignOffsets start decls
  { fields := r.1, totalSize := pad8 (r.2 + 8) }

/-- `_SharedMemoryLayout.__init__` end to end: parse every field's annotation
(`_analyze_fields`) then lay them out; `none` when any `_parse_type` raises.
The compiler performs no further validation (no duplicate-name check, no
shape-positivity check). -/
def compileFields (decls : List (String × PyType)) : Option Layout :=
  (decls.mapM fun d => (parseType d.2).map fun k => (d.1, k)).map compileLayout

/-! ## Values and the per-field codec

Numeric values are carried as their machine bit patterns: a Python float is
its binary64 image (numpy stores and reloads it bit-for-bit), an `int32` is a
signed integer, an array element is its `itemsize`-byte pattern. -/

inductive Val
  | f64 (bits : Nat)
  | i32 (v : Int)
  | boolV (b : Bool)
  | str (cps : List Nat)
  | arr (shape : List Nat) (elems : List Nat)
deriving DecidableEq, Repr

/-- Status bit masks (`FieldStatus`, lines 203-205). -/
def MASK_TRUNCATED : Nat := 1
def MASK_UNWRITTEN : Nat := 2
def MASK_MODIFIED : Nat := 4

/-- `status & ~mask` on a status byte (< 256). -/
def clearMask (st mask : Nat) : Nat := st &&& (255 - mask)

/-- `FieldStatus.is_truncated` (line 211). -/
def stTruncated (st : Nat) : Bool := st &&& MASK_TRUNCATED ≠ 0

/-- `FieldStatus.is_unwritten` (line 216). -/
def stUnwritten (st : Nat) : Bool := st &&& MASK_UNWRITTEN ≠ 0

/-- `FieldStatus.is_modified` (line 221). -/
def stModified (st : Nat) : Bool := st &&& MASK_MODIFIED ≠ 0

/-- `FieldStatus.is_valid` (lines 225-228). -/
def stValid (st : Nat) : Bool := ¬(stTruncated st ∨ stUnwritten st)

/-- Byte image and `truncated` flag laid down at a field's offset by the
write path (`_write_scalar` / `_write_string` / `_write_array`,
lines 746-801).  For a string the source writes the u32 byte length at
`offset` and the UTF-8 payload at `offset+4`; the concatenation below lays
the identical bytes at the identical offsets in one step.  `none` models a
raised conversion error (a value whose kind the field cannot take; every
claim publishes values of each field's declared type). -/
def encodeField (k : FieldKind) (v : Val) : Option (List Nat × Bool) :=
  match k, v with
  | .scalar .f64, .f64 bits => some (natToBytesLE 8 bits, false)
  | .scalar .i32, .i32 n => some (natToBytesLE 4 (n % (2 ^ 32 : Int)).toNat, false)
  | .scalar .boolS, .boolV b => some ([if b then 1 else 0], false)
  | .string maxChars, .str cps =>
    let truncated := decide (cps.length > maxChars)
    let cps2 := cps.take maxChars
    if cps2.all (fun c => decide (IsScalarValue c)) then
      let encoded := utf8Encode cps2
      some (natToBytesLE 4 encoded.length ++ encoded, truncated)
    else none
  | .array d shape, .arr vshape elems =>
    let tr0 := decide (vshape ≠ shape)
    let E := shape.prod
    let (flat, tr) :=
      if elems.length > E then (elems.take E, true)
      else if elems.length < E then
        (elems ++ List.replicate (E - elems.length) 0, tr0)
      else (elems, tr0)
    some (flat.flatMap (natToBytesLE d.itemsize), tr)
  | _, _ => none

/-- Split a byte run into `n` little-endian elements of `isz` bytes each
(the numpy view in `_read_array`, lines 922-932). -/
def decodeElems (isz : Nat) : Nat → List Nat → List Nat
  | 0, _ => []
  | n + 1, bs => bytesToNatLE (bs.take isz) :: decodeElems isz n (bs.drop isz)

/-- Read one field's value (`_read_scalar` / `_read_string` / `_read_array`,
lines 902-932). -/
def decodeField (buf : List Nat) (off : Nat) : FieldKind → Val
  | .scalar .f64 => .f64 (bytesToNatLE (readBytes buf off 8))
  | .scalar .i32 =>
    let n := bytesToNatLE (readBytes buf off 4)
    .i32 (if n < 2 ^ 31 then (n : Int) else (n : Int) - 2 ^ 32)
  | .scalar .boolS => .boolV (readByte buf off ≠ 0)
  | .string _ =>
    let len := readU32 buf off
    .str (utf8DecodeIgnore (readBytes buf (off + 4) len))
  | .array d shape =>
    let E := shape.prod
    .arr shape (decodeElems d.itemsize E (readBytes buf off (E * d.itemsize)))

/-! ## The shared-memory handle (`SharedMemory`) -/

/-- Dict lookup (`data[name]` after `name in data`). -/
def dictLookup (m : List (String × Val)) (k : String) : Option Val :=
  match m with
  | [] => none
  | (k2, v) :: rest => if k2 = k then some v else dictLookup rest k

/-- Set one key (replace in place or append), as CPython dicts do. -/
def dictSet (m : List (String × Val)) (k : String) (v : Val) :
    List (String × Val) :=
  match m with
  | [] => [(k, v)]
  | (k2, v2) :: rest =>
    if k2 = k then (k2, v) :: rest else (k2, v2) :: dictSet rest k v

/-- `self._write_buffer.update(kwargs)`. -/
def dictUpdate (m : List (String × Val)) : List (String × Val) →
    List (String × Val)
  | [] => m
  | (k, v) :: rest => dictUpdate (dictSet m k v) rest

/-- The process-local handle plus the shared region it addresses.
`buf` is the byte content of `self.shm.buf`; `writeBuffer` and
`writeBufferDirty` are the per-handle staging state (lines 448-449). -/
structure Shm where
  layout : Layout
  slots : Nat
  buf : List Nat
  writeBuffer : List (String × Val)
  writeBufferDirty : Bool
deriving DecidableEq, Repr

def Shm.isFifo (s : Shm) : Bool := decide (s.slots > 1)

/-- `metadata_size` (line 421). -/
def Shm.dataOffset (s : Shm) : Nat := if s.isFifo then 24 else 0

/-- `_get_slot_offset` (line 657). -/
def Shm.slotOffset (s : Shm) (slotIdx : Nat) : Nat :=
  s.dataOffset + slotIdx * s.layout.totalSize

/-- `_get_fifo_metadata` (lines 677-684). -/
def getFifoMetadata (s : Shm) : Nat × Nat × Nat :=
  if s.isFifo then (readU64 s.buf 0, readU64 s.buf 8, readU64 s.buf 16)
  else (0, 0, 0)

/-- `_set_fifo_metadata` (lines 686-692). -/
def setFifoMetadata (s : Shm) (w r c : Nat) : Shm :=
  if s.isFifo then
    { s with buf := writeU64 (writeU64 (writeU64 s.buf 0 w) 8 r) 16 c }
  else s

/-- The status-initialization loop of `_initialize_slot` (lines 650-651):
one `UNWRITTEN` byte per field, ascending. -/
def initStatusLoop : List Nat → Nat → Nat → List Nat
  | buf, _, 0 => buf
  | buf, so, n + 1 => initStatusLoop (writeByte buf so MASK_UNWRITTEN) (so + 1) n

/-- `_initialize_slot` (lines 640-655). -/
def initializeSlot (s : Shm) (slotIdx : Nat) : Shm :=
  let off := s.slotOffset slotIdx
  let buf := writeU64 s.buf off 0
  let buf := initStatusLoop buf (off + 8) s.layout.fields.length
  { s with buf := writeU64 buf (off + s.layout.totalSize - 8) 0 }

/-- The `for slot_idx in range(slots)` loop of `__init__` (lines 440-441). -/
def initializeSlots (s : Shm) : Nat → Shm
  | 0 => s
  | n + 1 => initializeSlot (initializeSlots s n) n

/-- `__init__` with `create=True` (lines 403-449): a fresh zero-filled region
(`multiprocessing.shared_memory` zero-fills new segments) of
`metadata_size + slot_size * slots` bytes, ring metadata zeroed, every slot
initialized, staging state empty.  `none` is the `ValueError` for
`slots < 1`. -/
def createShm (layout : Layout) (slots : Nat) : Option Shm :=
  if slots < 1 then none
  else
    let metadataSize := if slots > 1 then 24 else 0
    let s : Shm :=
      { layout := layout, slots := slots
        buf := List.replicate (metadataSize + layout.totalSize * slots) 0
        writeBuffer := [], writeBufferDirty := false }
    let s := setFifoMetadata s 0 0 0
    some (initializeSlots s slots)

/-- The status byte produced for one written field in `_write_to_slot`
(lines 726-735): clear `UNWRITTEN`, set `MODIFIED`, set or clear `TRUNCATED`
per the codec's report. -/
def writtenStatus (st : Nat) (truncated : Bool) : Nat :=
  let st2 := clearMask st MASK_UNWRITTEN ||| MASK_MODIFIED
  if truncated then st2 ||| MASK_TRUNCATED else clearMask st2 MASK_TRUNCATED

/-- The field loop of `_write_to_slot` (`for idx, field_info in
enumerate(...)`, lines 709-740): `idx` is the running status index; `none`
when an encode raises. -/
def writeFieldsLoop (slotOff statusOff : Nat) (data : List (String × Val)) :
    Nat → List FieldInfo → List Nat → Option (List Nat)
  | _, [], buf => some buf
  | idx, fi :: rest, buf =>
    match dictLookup data fi.name with
    | some v =>
      match encodeField fi.kind v with
      | none => none
      | some (bytes, truncated) =>
        let buf2 := writeBytes buf (slotOff + fi.offset) bytes
        let st := writtenStatus (readByte buf2 (statusOff + idx)) truncated
        writeFieldsLoop slotOff statusOff data (idx + 1) rest
          (writeByte buf2 (statusOff + idx) st)
    | none =>
      let st := readByte buf (statusOff + idx)
      writeFieldsLoop slotOff statusOff data (idx + 1) rest
        (writeByte buf (statusOff + idx) (clearMask st MASK_MODIFIED))

/-- `_write_to_slot` (lines 694-744): bump `seq_begin`, run the field loop,
mirror the sequence into `seq_end`.  `to_bytes` wraps the (never reached)
2^64 overflow. -/
def writeToSlot (s : Shm) (slotIdx : Nat) (data : List (String × Val)) :
    Option Shm :=
  let off := s.slotOffset slotIdx
  let seq := readU64 s.buf off + 1
  let buf := writeU64 s.buf off seq
  match writeFieldsLoop off (off + 8) data 0 s.layout.fields buf with
  | none => none
  | some buf2 =>
    some { s with buf := writeU64 buf2 (off + s.layout.totalSize - 8) seq }

/-- `write` (lines 451-484): stage in FIFO mode, write through in single-slot
mode. -/
def publish (s : Shm) (kwargs : List (String × Val)) : Option Shm :=
  if s.isFifo then
    some { s with writeBuffer := dictUpdate s.writeBuffer kwargs,
                  writeBufferDirty := true }
  else writeToSlot s 0 kwargs

/-- `finalize` (lines 486-538).  `none` covers both the single-slot
`RuntimeError` and an encode failure inside `_write_to_slot`; a clean staging
buffer returns unchanged (line 514). -/
def finalize (s : Shm) : Option Shm :=
  if ¬s.isFifo then none
  else if ¬s.writeBufferDirty then some s
  else
    let (w, r, c) := getFifoMetadata s
    match writeToSlot s (w % s.slots) s.writeBuffer with
    | none => none
    | some s2 =>
      let w2 := w + 1
      let (r2, c2) := if c < s.slots then (r, c + 1) else (r + 1, c)
      some { setFifoMetadata s2 w2 r2 c2 with
              writeBuffer := [], writeBufferDirty := false }

/-- One field of a returned record: the decoded value wrapped with its status
byte (`ValueWithStatus`). -/
structure FieldRead where
  name : String
  value : Val
  status : Nat
deriving DecidableEq, Repr

/-- The reset loop of `_read_from_slot` (lines 893-897). -/
def clearModifiedLoop : List Nat → Nat → Nat → List Nat
  | buf, _, 0 => buf
  | buf, so, n + 1 =>
    clearModifiedLoop
      (writeByte buf so (clearMask (readByte buf so) MASK_MODIFIED)) (so + 1) n

/-- The field loop of `_read_from_slot` (lines 866-882): one
`FieldRead` per field, `idx` the running status index. -/
def readFieldsLoop (buf : List Nat) (slotOff statusOff : Nat) :
    Nat → List FieldInfo → List FieldRead
  | _, [] => []
  | idx, fi :: rest =>
    { name := fi.name
      value := decodeField buf (slotOff + fi.offset) fi.kind
      status := readByte buf (statusOff + idx) : FieldRead } ::
      readFieldsLoop buf slotOff statusOff (idx + 1) rest

/-- `_read_from_slot` (lines 854-900): read `seq_begin`, decode every field
with its status byte, read `seq_end`; mismatch is a torn read (`none`, state
untouched); otherwise optionally clear `MODIFIED` everywhere. -/
def readFromSlot (s : Shm) (slotIdx : Nat) (resetModified : Bool) :
    Option (List FieldRead) × Shm :=
  let off := s.slotOffset slotIdx
  let seqBegin := readU64 s.buf off
  let statusOff := off + 8
  let fieldValues := readFieldsLoop s.buf off statusOff 0 s.layout.fields
  let seqEnd := readU64 s.buf (off + s.layout.totalSize - 8)
  if seqBegin ≠ seqEnd then (none, s)
  else if resetModified then
    (some fieldValues,
      { s with buf := clearModifiedLoop s.buf statusOff s.layout.fields.length })
  else (some fieldValues, s)

/-- `_read_single` at `timeout=0` (lines 803-817): a single attempt on
slot 0. -/
def readSingle (s : Shm) (resetModified : Bool) :
    Option (List FieldRead) × Shm :=
  readFromSlot s 0 resetModified

/-- `_read_fifo` at `timeout=0` on a quiescent state (lines 819-852): the
source retries a torn slot in a sleep loop; sequentially a slot is never torn
mid-rest, so a torn result is surfaced as `none` here. -/
def readFifo (s : Shm) (latest : Bool) : Option (List FieldRead) × Shm :=
  let (w, r, c) := getFifoMetadata s
  if c = 0 then (none, s)
  else
    let (r2, c2) := if latest ∧ c > 1 then (w - 1, 1) else (r, c)
    let slotIdx := r2 % s.slots
    match readFromSlot s slotIdx false with
    | (none, _) => (none, s)
    | (some rec2, s2) => (some rec2, setFifoMetadata s2 w (r2 + 1) (c2 - 1))

/-- `read` at `timeout=0` (lines 540-606); the outer `none` is the
`ValueError` for `reset_modified` in FIFO mode. -/
def readShm (s : Shm) (latest resetModified : Bool) :
    Option (Option (List FieldRead) × Shm) :=
  if resetModified ∧ s.isFifo then none
  else if s.isFifo then some (readFifo s latest)
  else some (readSingle s resetModified)

/-! ## Codec round-trip lemmas -/

/-- "x fits within its field's declared bounds": a scalar of the declared
type (a binary64 pattern; an `int32`-range integer), a string of at most
`max_chars` well-formed code points (whose UTF-8 image fits the u32 length
prefix the source writes), an array of the declared shape with one in-range
pattern per element. -/
def ValFits : FieldKind → Val → Prop
  | .scalar .f64, .f64 bits => bits < 2 ^ 64
  | .scalar .i32, .i32 v => -(2 ^ 31) ≤ v ∧ v < 2 ^ 31
  | .scalar .boolS, .boolV _ => True
  | .string maxChars, .str cps =>
    cps.length ≤ maxChars ∧ (∀ c ∈ cps, IsScalarValue c) ∧
      (utf8Encode cps).length < 2 ^ 32
  | .array d shape, .arr vshape elems =>
    vshape = shape ∧ elems.length = shape.prod ∧
      ∀ e ∈ elems, e < 256 ^ d.itemsize
  | _, _ => False

instance : (k : FieldKind) → (v : Val) → Decidable (ValFits k v)
  | .scalar .f64, .f64 bits => inferInstanceAs (Decidable (bits < 2 ^ 64))
  | .scalar .f64, .i32 _ => inferInstanceAs (Decidable False)
  | .scalar .f64, .boolV _ => inferInstanceAs (Decidable False)
  | .scalar .f64, .str _ => inferInstanceAs (Decidable False)
  | .scalar .f64, .arr _ _ => inferInstanceAs (Decidable False)
  | .scalar .i32, .f64 _ => inferInstanceAs (Decidable False)
  | .scalar .i32, .i32 _ => inferInstanceAs (Decidable (_ ∧ _))
  | .scalar .i32, .boolV _ => inferInstanceAs (Decidable False)
  | .scalar .i32, .str _ => inferInstanceAs (Decidable False)
  | .scalar .i32, .arr _ _ => inferInstanceAs (Decidable False)
  | .scalar .boolS, .f64 _ => inferInstanceAs (Decidable False)
  | .scalar .boolS, .i32 _ => inferInstanceAs (Decidable False)
  | .scalar .boolS, .boolV _ => inferInstanceAs (Decidable True)
  | .scalar .boolS, .str _ => inferInstanceAs (Decidable False)
  | .scalar .boolS, .arr _ _ => inferInstanceAs (Decidable False)
  | .string _, .f64 _ => inferInstanceAs (Decidable False)
  | .string _, .i32 _ => inferInstanceAs (Decidable False)
  | .string _, .boolV _ => inferInstanceAs (Decidable False)
  | .string _, .str _ => inferInstanceAs (Decidable (_ ∧ _ ∧ _))
  | .string _, .arr _ _ => inferInstanceAs (Decidable False)
  | .array _ _, .f64 _ => inferInstanceAs (Decidable False)
  | .array _ _, .i32 _ => inferInstanceAs (Decidable False)
  | .array _ _, .boolV _ => inferInstanceAs (Decidable False)
  | .array _ _, .str _ => inferInstanceAs (Decidable False)
  | .array _ _, .arr _ _ => inferInstanceAs (Decidable (_ ∧ _ ∧ _))

theorem encodeCp_length_le (c : Nat) : (encodeCp c).length ≤ 4 := by
  unfold encodeCp
  split_ifs <;> simp

theorem utf8Encode_length_le (cps : List Nat) :
    (utf8Encode cps).length ≤ 4 * cps.length := by
  induction cps with
  | nil => simp [utf8Encode]
  | cons c cs ih =>
    simp only [utf8Encode, List.flatMap_cons, List.length_append,
      List.length_cons] at *
    have := encodeCp_length_le c
    omega

theorem flatMap_natToBytesLE_length (isz : Nat) (l : List Nat) :
    (l.flatMap (natToBytesLE isz)).length = l.length * isz := by
  induction l with
  | nil => simp
  | cons e es ih =>
    simp only [List.flatMap_cons, List.length_append, List.length_cons,
      natToBytesLE_length, ih]
    ring

theorem encodeField_length (k : FieldKind) (v : Val) (bs : List Nat) (t : Bool)
    (h : encodeField k v = some (bs, t)) : bs.length ≤ k.size := by
  cases k with
  | scalar st =>
    cases st <;> cases v <;>
      first
      | exact Option.noConfusion h
      | (simp only [encodeField, Option.some.injEq, Prod.mk.injEq] at h
         obtain ⟨h1, h2⟩ := h
         subst h1
         simp [FieldKind.size, ScalarTy.size, natToBytesLE_length])
  | string mc =>
    cases v <;>
      first
      | exact Option.noConfusion h
      | skip
    rename_i cps
    simp only [encodeField] at h
    split at h
    · simp only [Option.some.injEq, Prod.mk.injEq] at h
      obtain ⟨h1, h2⟩ := h
      subst h1
      simp only [List.length_append, natToBytesLE_length, FieldKind.size]
      have h2 := utf8Encode_length_le (cps.take mc)
      have h3 : (cps.take mc).length ≤ mc := by simp
      omega
    · exact Option.noConfusion h
  | array d shape =>
    cases v <;>
      first
      | exact Option.noConfusion h
      | skip
    rename_i vshape elems
    simp only [encodeField, Option.some.injEq, Prod.mk.injEq] at h
    obtain ⟨h1, h2⟩ := h
    subst h1
    by_cases hgt : elems.length > shape.prod
    · simp only [if_pos hgt, FieldKind.size, flatMap_natToBytesLE_length,
        List.length_take]
      have hm : min shape.prod elems.length = shape.prod := by omega
      rw [hm]
    · by_cases hlt : elems.length < shape.prod
      · simp only [if_neg hgt, if_pos hlt, FieldKind.size,
          flatMap_natToBytesLE_length, List.length_append,
          List.length_replicate]
        have hm : elems.length + (shape.prod - elems.length) = shape.prod := by
          omega
        rw [hm]
      · simp only [if_neg hgt, if_neg hlt, FieldKind.size,
          flatMap_natToBytesLE_length]
        have hm : elems.length = shape.prod := by omega
        rw [hm]

/-! ## Layout well-formedness -/

/-- The facts about a compiled layout that the slot-protocol proofs use:
every field lies after the status area and, together with the 8-byte footer,
inside the slot; fields are pairwise disjoint in declaration order. -/
structure LayoutWF (L : Layout) : Prop where
  field_lb : ∀ f ∈ L.fields, 8 + L.fields.length ≤ f.offset
  field_ub : ∀ f ∈ L.fields, f.offset + f.kind.size + 8 ≤ L.totalSize
  header_ub : 8 + L.fields.length + 8 ≤ L.totalSize
  disjoint : L.fields.Pairwise fun f g => f.offset + f.kind.size ≤ g.offset

theorem le_pad8 (n : Nat) : n ≤ pad8 n := by
  unfold pad8
  omega

theorem assignOffsets_snd_ge (off : Nat) (ds : List (String × FieldKind)) :
    off ≤ (assignOffsets off ds).2 := by
  induction ds generalizing off with
  | nil => simp [assignOffsets]
  | cons d rest ih =>
    simp only [assignOffsets]
    have := ih (off + d.2.size)
    omega

theorem assignOffsets_mem_bounds (off : Nat) (ds : List (String × FieldKind)) :
    ∀ f ∈ (assignOffsets off ds).1,
      off ≤ f.offset ∧ f.offset + f.kind.size ≤ (assignOffsets off ds).2 := by
  induction ds generalizing off with
  | nil => simp [assignOffsets]
  | cons d rest ih =>
    intro f hf
    simp only [assignOffsets, List.mem_cons] at hf ⊢
    rcases hf with rfl | hf
    · refine ⟨Nat.le_refl _, ?_⟩
      have := assignOffsets_snd_ge (off + d.2.size) rest
      simpa using this
    · have := ih (off + d.2.size) f hf
      omega

theorem assignOffsets_length (off : Nat) (ds : List (String × FieldKind)) :
    (assignOffsets off ds).1.length = ds.length := by
  induction ds generalizing off with
  | nil => rfl
  | cons d rest ih => simp [assignOffsets, ih]

theorem assignOffsets_pairwise (off : Nat) (ds : List (String × FieldKind)) :
    (assignOffsets off ds).1.Pairwise
      (fun f g => f.offset + f.kind.size ≤ g.offset) := by
  induction ds generalizing off with
  | nil => simp [assignOffsets]
  | cons d rest ih =>
    simp only [assignOffsets]
    refine List.Pairwise.cons ?_ (ih _)
    intro g hg
    have := (assignOffsets_mem_bounds (off + d.2.size) rest g hg).1
    simpa using this

/-- The layout compiler always emits a well-formed layout. -/
theorem compileLayout_wf (ds : List (String × FieldKind)) :
    LayoutWF (compileLayout ds) := by
  have hpad := le_pad8 (8 + ds.length)
  have hlen : (compileLayout ds).fields.length = ds.length := by
    simp [compileLayout, assignOffsets_length]
  constructor
  · intro f hf
    have := (assignOffsets_mem_bounds (pad8 (8 + ds.length)) ds f hf).1
    rw [hlen]
    omega
  · intro f hf
    have h1 := (assignOffsets_mem_bounds (pad8 (8 + ds.length)) ds f hf).2
    have h2 := le_pad8 ((assignOffsets (pad8 (8 + ds.length)) ds).2 + 8)
    simp only [compileLayout]
    omega
  · have h1 := assignOffsets_snd_ge (pad8 (8 + ds.length)) ds
    have h2 := le_pad8 ((assignOffsets (pad8 (8 + ds.length)) ds).2 + 8)
    rw [hlen]
    simp only [compileLayout]
    omega
  · exact assignOffsets_pairwise _ _

/-- Well-formed handle state: a compiled-layout region whose buffer has the
size `__init__` allocates. -/
def ShmWF (s : Shm) : Prop :=
  LayoutWF s.layout ∧ 1 ≤ s.slots ∧
    s.buf.length = s.dataOffset + s.slots * s.layout.totalSize

theorem slot_region_ub (s : Shm) (hs : ShmWF s) (i : Nat) (hi : i < s.slots) :
    s.slotOffset i + s.layout.totalSize ≤ s.buf.length := by
  obtain ⟨_, _, hlen⟩ := hs
  unfold Shm.slotOffset at *
  have : (i + 1) * s.layout.totalSize ≤ s.slots * s.layout.totalSize :=
    Nat.mul_le_mul_right _ (by omega)
  rw [hlen]
  have h2 : i * s.layout.totalSize + s.layout.totalSize
      = (i + 1) * s.layout.totalSize := by ring
  omega

/-! ## Write-loop lemmas

The field loop of `_write_to_slot` touches, for the processed suffix starting
at status index `i`, exactly the status bytes `statusOff + i ..` and the
fields' content regions.  The lemmas below capture success, length
preservation, the frame condition, and the status/content post-state. -/

theorem writeFieldsLoop_some (slotOff statusOff : Nat)
    (data : List (String × Val)) (fs : List FieldInfo) (i : Nat)
    (buf : List Nat)
    (hub : ∀ f ∈ fs, slotOff + f.offset + f.kind.size ≤ buf.length)
    (hst : statusOff + i + fs.length ≤ buf.length)
    (henc : ∀ f ∈ fs, ∀ v, dictLookup data f.name = some v →
      (encodeField f.kind v).isSome) :
    ∃ buf2, writeFieldsLoop slotOff statusOff data i fs buf = some buf2 ∧
      buf2.length = buf.length := by
  induction fs generalizing i buf with
  | nil => exact ⟨buf, rfl, rfl⟩
  | cons f rest ih =>
    simp only [List.length_cons] at hst
    have hsb : statusOff + i + 1 ≤ buf.length := by omega
    simp only [writeFieldsLoop]
    cases hd : dictLookup data f.name with
    | none =>
      have hwl : (writeByte buf (statusOff + i)
          (clearMask (readByte buf (statusOff + i)) MASK_MODIFIED)).length
          = buf.length := by
        apply writeBytes_length
        simpa using hsb
      obtain ⟨buf2, h2, hl2⟩ := ih (i + 1) _
        (by intro g hg; rw [hwl]; exact hub g (List.mem_cons_of_mem f hg))
        (by rw [hwl]; omega)
        (by intro g hg; exact henc g (List.mem_cons_of_mem f hg))
      exact ⟨buf2, h2, by rw [hl2, hwl]⟩
    | some v =>
      have hv := henc f (List.mem_cons_self f rest) v hd
      obtain ⟨⟨bytes, t⟩, hbt⟩ := Option.isSome_iff_exists.mp hv
      simp only [hbt]
      have hblen := encodeField_length f.kind v bytes t hbt
      have hfub := hub f (List.mem_cons_self f rest)
      have hwb : (writeBytes buf (slotOff + f.offset) bytes).length
          = buf.length := by
        apply writeBytes_length
        omega
      have hwl : (writeByte (writeBytes buf (slotOff + f.offset) bytes)
          (statusOff + i) (writtenStatus (readByte
            (writeBytes buf (slotOff + f.offset) bytes) (statusOff + i)) t)).length
          = buf.length := by
        rw [writeByte]
        rw [writeBytes_length]
        · exact hwb
        · simp only [List.length_singleton]
          rw [hwb]
          omega
      obtain ⟨buf2, h2, hl2⟩ := ih (i + 1) _
        (by intro g hg; rw [hwl]; exact hub g (List.mem_cons_of_mem f hg))
        (by rw [hwl]; omega)
        (by intro g hg; exact henc g (List.mem_cons_of_mem f hg))
      exact ⟨buf2, h2, by rw [hl2, hwl]⟩

theorem writeFieldsLoop_length (slotOff statusOff : Nat)
    (data : List (String × Val)) (fs : List FieldInfo) (i : Nat)
    (buf buf2 : List Nat)
    (heq : writeFieldsLoop slotOff statusOff data i fs buf = some buf2)
    (hub : ∀ f ∈ fs, slotOff + f.offset + f.kind.size ≤ buf.length)
    (hst : statusOff + i + fs.length ≤ buf.length) :
    buf2.length = buf.length := by
  induction fs generalizing i buf with
  | nil =>
    simp only [writeFieldsLoop, Option.some.injEq] at heq
    rw [heq]
  | cons f rest ih =>
    simp only [List.length_cons] at hst
    have hfub := hub f (List.mem_cons_self f rest)
    simp only [writeFieldsLoop] at heq
    cases hd : dictLookup data f.name with
    | none =>
      simp only [hd] at heq
      have hwlen : (writeByte buf (statusOff + i)
          (clearMask (readByte buf (statusOff + i)) MASK_MODIFIED)).length
          = buf.length := by
        apply writeBytes_length
        simp only [List.length_singleton]
        omega
      have := ih (i + 1) _ heq
        (fun g hg => by rw [hwlen]; exact hub g (List.mem_cons_of_mem f hg))
        (by rw [hwlen]; omega)
      rw [this, hwlen]
    | some v =>
      simp only [hd] at heq
      cases hbt : encodeField f.kind v with
      | none =>
        simp only [hbt] at heq
        exact Option.noConfusion heq
      | some p =>
        obtain ⟨bytes, t⟩ := p
        simp only [hbt] at heq
        have hblen := encodeField_length f.kind v bytes t hbt
        have hwb : (writeBytes buf (slotOff + f.offset) bytes).length
            = buf.length := by
          apply writeBytes_length
          omega
        have hwl : (writeByte (writeBytes buf (slotOff + f.offset) bytes)
            (statusOff + i) (writtenStatus (readByte
              (writeBytes buf (slotOff + f.offset) bytes)
              (statusOff + i)) t)).length = buf.length := by
          rw [writeByte, writeBytes_length]
          · exact hwb
          · simp only [List.length_singleton]
            rw [hwb]
            omega
        have := ih (i + 1) _ heq
          (fun g hg => by rw [hwl]; exact hub g (List.mem_cons_of_mem f hg))
          (by rw [hwl]; omega)
        rw [this, hwl]

theorem writeFieldsLoop_frame (slotOff statusOff : Nat)
    (data : List (String × Val)) (fs : List FieldInfo) (i : Nat)
    (buf buf2 : List Nat) (q : Nat)
    (heq : writeFieldsLoop slotOff statusOff data i fs buf = some buf2)
    (hub : ∀ f ∈ fs, slotOff + f.offset + f.kind.size ≤ buf.length)
    (hst : statusOff + i + fs.length ≤ buf.length)
    (hqs : q < statusOff + i ∨ statusOff + i + fs.length ≤ q)
    (hqf : ∀ f ∈ fs, q < slotOff + f.offset ∨
      slotOff + f.offset + f.kind.size ≤ q) :
    readByte buf2 q = readByte buf q := by
  induction fs generalizing i buf with
  | nil =>
    simp only [writeFieldsLoop, Option.some.injEq] at heq
    rw [heq]
  | cons f rest ih =>
    simp only [List.length_cons] at hst hqs
    have hfub := hub f (List.mem_cons_self f rest)
    have hqf0 := hqf f (List.mem_cons_self f rest)
    simp only [writeFieldsLoop] at heq
    cases hd : dictLookup data f.name with
    | none =>
      simp only [hd] at heq
      have hwlen : (writeByte buf (statusOff + i)
          (clearMask (readByte buf (statusOff + i)) MASK_MODIFIED)).length
          = buf.length := by
        apply writeBytes_length
        simp only [List.length_singleton]
        omega
      have ihres := ih (i + 1) _ heq
        (fun g hg => by rw [hwlen]; exact hub g (List.mem_cons_of_mem f hg))
        (by rw [hwlen]; omega)
        (by omega)
        (fun g hg => hqf g (List.mem_cons_of_mem f hg))
      rw [ihres]
      rcases hqs with h | h
      · exact readByte_writeBytes_left buf _ _ q (by omega) (by omega)
      · exact readByte_writeBytes_right buf _ _ q
          (by simp only [List.length_singleton]; omega) (by omega)
    | some v =>
      simp only [hd] at heq
      cases hbt : encodeField f.kind v with
      | none =>
        simp only [hbt] at heq
        exact Option.noConfusion heq
      | some p =>
        obtain ⟨bytes, t⟩ := p
        simp only [hbt] at heq
        have hblen := encodeField_length f.kind v bytes t hbt
        have hwb : (writeBytes buf (slotOff + f.offset) bytes).length
            = buf.length := by
          apply writeBytes_length
          omega
        have hwl : (writeByte (writeBytes buf (slotOff + f.offset) bytes)
            (statusOff + i) (writtenStatus (readByte
              (writeBytes buf (slotOff + f.offset) bytes)
              (statusOff + i)) t)).length = buf.length := by
          rw [writeByte, writeBytes_length]
          · exact hwb
          · simp only [List.length_singleton]
            rw [hwb]
            omega
        have ihres := ih (i + 1) _ heq
          (fun g hg => by rw [hwl]; exact hub g (List.mem_cons_of_mem f hg))
          (by rw [hwl]; omega)
          (by omega)
          (fun g hg => hqf g (List.mem_cons_of_mem f hg))
        rw [ihres]
        have h1 : readByte (writeByte (writeBytes buf (slotOff + f.offset)
            bytes) (statusOff + i) (writtenStatus (readByte
              (writeBytes buf (slotOff + f.offset) bytes)
              (statusOff + i)) t)) q
            = readByte (writeBytes buf (slotOff + f.offset) bytes) q := by
          rcases hqs with h | h
          · exact readByte_writeBytes_left _ _ _ q (by omega)
              (by rw [hwb]; omega)
          · exact readByte_writeBytes_right _ _ _ q
              (by simp only [List.length_singleton]; omega)
              (by rw [hwb]; omega)
        rw [h1]
        rcases hqf0 with h | h
        · exact readByte_writeBytes_left buf _ bytes q (by omega) (by omega)
        · exact readByte_writeBytes_right buf _ bytes q (by omega) (by omega)

/-! ## Status-bit arithmetic -/

theorem stTruncated_eq (st : Nat) : stTruncated st = st.testBit 0 := by
  unfold stTruncated MASK_TRUNCATED
  rw [show (1 : Nat) = 2 ^ 0 from rfl, Nat.and_two_pow]
  cases h : st.testBit 0 <;> simp [h]

theorem stUnwritten_eq (st : Nat) : stUnwritten st = st.testBit 1 := by
  unfold stUnwritten MASK_UNWRITTEN
  rw [show (2 : Nat) = 2 ^ 1 from rfl, Nat.and_two_pow]
  cases h : st.testBit 1 <;> simp [h]

theorem stModified_eq (st : Nat) : stModified st = st.testBit 2 := by
  unfold stModified MASK_MODIFIED
  rw [show (4 : Nat) = 2 ^ 2 from rfl, Nat.and_two_pow]
  cases h : st.testBit 2 <;> simp [h]

theorem stTruncated_writtenStatus (st : Nat) (t : Bool) :
    stTruncated (writtenStatus st t) = t := by
  rw [stTruncated_eq]
  unfold writtenStatus clearMask MASK_UNWRITTEN MASK_MODIFIED MASK_TRUNCATED
  cases t <;>
    simp [Nat.testBit_lor, Nat.testBit_land,
      show Nat.testBit 4 0 = false from by decide,
      show Nat.testBit 254 0 = false from by decide,
      show Nat.testBit 1 0 = true from by decide]

theorem stUnwritten_writtenStatus (st : Nat) (t : Bool) :
    stUnwritten (writtenStatus st t) = false := by
  rw [stUnwritten_eq]
  unfold writtenStatus clearMask MASK_UNWRITTEN MASK_MODIFIED MASK_TRUNCATED
  cases t <;>
    simp [Nat.testBit_lor, Nat.testBit_land,
      show Nat.testBit 4 1 = false from by decide,
      show Nat.testBit 1 1 = false from by decide,
      show Nat.testBit 253 1 = false from by decide]

theorem stModified_writtenStatus (st : Nat) (t : Bool) :
    stModified (writtenStatus st t) = true := by
  rw [stModified_eq]
  unfold writtenStatus clearMask MASK_UNWRITTEN MASK_MODIFIED MASK_TRUNCATED
  cases t <;>
    simp [Nat.testBit_lor, Nat.testBit_land,
      show Nat.testBit 4 2 = true from by decide,
      show Nat.testBit 254 2 = true from by decide]

theorem stModified_clearModified (st : Nat) :
    stModified (clearMask st MASK_MODIFIED) = false := by
  rw [stModified_eq]
  unfold clearMask MASK_MODIFIED
  simp [Nat.testBit_land, show Nat.testBit 251 2 = false from by decide]

theorem stUnwritten_clearModified (st : Nat) :
    stUnwritten (clearMask st MASK_MODIFIED) = stUnwritten st := by
  rw [stUnwritten_eq, stUnwritten_eq]
  unfold clearMask MASK_MODIFIED
  simp [Nat.testBit_land, show Nat.testBit 251 1 = true from by decide]

theorem stTruncated_clearModified (st : Nat) :
    stTruncated (clearMask st MASK_MODIFIED) = stTruncated st := by
  rw [stTruncated_eq, stTruncated_eq]
  unfold clearMask MASK_MODIFIED
  simp [Nat.testBit_land, show Nat.testBit 251 0 = true from by decide]

/-! ## From per-byte frames to slice frames -/

theorem readByte_eq_getD (buf : List Nat) (q : Nat) :
    readByte buf q = buf[q]?.getD 0 := by
  unfold readByte readBytes
  have hd := List.getElem?_drop buf q 0
  rw [Nat.add_zero] at hd
  rw [← hd]
  cases h : buf.drop q with
  | nil => simp [h]
  | cons b rest => simp [h]

theorem readBytes_ext (b1 b2 : List Nat) (off len : Nat)
    (hlen : b1.length = b2.length)
    (h : ∀ q, off ≤ q → q < off + len → readByte b1 q = readByte b2 q) :
    readBytes b1 off len = readBytes b2 off len := by
  apply List.ext_getElem?
  intro j
  unfold readBytes
  rw [List.getElem?_take, List.getElem?_take]
  split
  · rw [List.getElem?_drop, List.getElem?_drop]
    have hq := h (off + j) (by omega) (by omega)
    rw [readByte_eq_getD, readByte_eq_getD] at hq
    cases h1 : b1[off + j]? with
    | none =>
      have : b2.length ≤ off + j := by
        rw [← hlen]
        exact List.getElem?_eq_none_iff.mp h1
      rw [List.getElem?_eq_none_iff.mpr this]
    | some x =>
      have hlt : off + j < b1.length := by
        by_contra hge
        rw [List.getElem?_eq_none_iff.mpr (by omega)] at h1
        exact Option.noConfusion h1
      cases h2 : b2[off + j]? with
      | none =>
        have := List.getElem?_eq_none_iff.mp h2
        omega
      | some y =>
        simp only [h1, h2, Option.getD_some] at hq
        rw [hq]
  · rfl

theorem writeFieldsLoop_frame_bytes (slotOff statusOff : Nat)
    (data : List (String × Val)) (fs : List FieldInfo) (i : Nat)
    (buf buf2 : List Nat) (qoff qlen : Nat)
    (heq : writeFieldsLoop slotOff statusOff data i fs buf = some buf2)
    (hub : ∀ f ∈ fs, slotOff + f.offset + f.kind.size ≤ buf.length)
    (hst : statusOff + i + fs.length ≤ buf.length)
    (hqs : qoff + qlen ≤ statusOff + i ∨ statusOff + i + fs.length ≤ qoff)
    (hqf : ∀ f ∈ fs, qoff + qlen ≤ slotOff + f.offset ∨
      slotOff + f.offset + f.kind.size ≤ qoff) :
    readBytes buf2 qoff qlen = readBytes buf qoff qlen := by
  apply readBytes_ext _ _ _ _
    (writeFieldsLoop_length slotOff statusOff data fs i buf buf2 heq hub hst)
  intro q hq1 hq2
  apply writeFieldsLoop_frame slotOff statusOff data fs i buf buf2 q heq hub hst
  · omega
  · intro f hf
    have := hqf f hf
    omega

/-- Statement helper: the status byte `_write_to_slot` leaves for one field,
as a function of the byte it held before the write (the final arm is
unreachable whenever the write as a whole succeeded). -/
def expectedStatus (data : List (String × Val)) (f : FieldInfo)
    (old : Nat) : Nat :=
  match dictLookup data f.name with
  | none => clearMask old MASK_MODIFIED
  | some v =>
    match encodeField f.kind v with
    | some (_, t) => writtenStatus old t
    | none => 0

/-- Reading strictly between a status-byte write and a later content write
sees the original buffer. -/
theorem readByte_skip_two (buf : List Nat) (cOff : Nat) (bytes : List Nat)
    (sPos st q : Nat) (hcb : cOff + bytes.length ≤ buf.length)
    (hs : sPos + 1 ≤ q) (hc : q + 1 ≤ cOff) :
    readByte (writeByte (writeBytes buf cOff bytes) sPos st) q
      = readByte buf q := by
  have hlen : (writeBytes buf cOff bytes).length = buf.length :=
    writeBytes_length _ _ _ hcb
  rw [writeByte]
  rw [readByte_writeBytes_right _ _ _ _
    (by simp only [List.length_singleton]; omega) (by rw [hlen]; omega)]
  exact readByte_writeBytes_left _ _ _ _ hc (by omega)

theorem writeFieldsLoop_status (slotOff statusOff : Nat)
    (data : List (String × Val)) (fs1 : List FieldInfo) (f : FieldInfo)
    (fs2 : List FieldInfo) (i : Nat) (buf buf2 : List Nat)
    (heq : writeFieldsLoop slotOff statusOff data i (fs1 ++ f :: fs2) buf
      = some buf2)
    (hub : ∀ g ∈ fs1 ++ f :: fs2, slotOff + g.offset + g.kind.size ≤ buf.length)
    (hlb : ∀ g ∈ fs1 ++ f :: fs2,
      statusOff + i + (fs1 ++ f :: fs2).length ≤ slotOff + g.offset)
    (hst : statusOff + i + (fs1 ++ f :: fs2).length ≤ buf.length) :
    readByte buf2 (statusOff + i + fs1.length)
      = expectedStatus data f (readByte buf (statusOff + i + fs1.length)) := by
  induction fs1 generalizing i buf with
  | nil =>
    simp only [List.nil_append, List.length_cons, List.length_nil,
      Nat.add_zero] at *
    simp only [writeFieldsLoop] at heq
    have hfub := hub f (List.mem_cons_self f fs2)
    have hflb := hlb f (List.mem_cons_self f fs2)
    have hpos : statusOff + i + 1 ≤ buf.length := by omega
    cases hd : dictLookup data f.name with
    | none =>
      simp only [hd] at heq
      have hb1len : (writeByte buf (statusOff + i)
          (clearMask (readByte buf (statusOff + i)) MASK_MODIFIED)).length
          = buf.length := by
        apply writeBytes_length
        simpa using hpos
      have hframe := writeFieldsLoop_frame slotOff statusOff data fs2 (i + 1)
        _ buf2 (statusOff + i) heq
        (fun g hg => by rw [hb1len]; exact hub g (List.mem_cons_of_mem f hg))
        (by rw [hb1len]; omega)
        (by omega)
        (fun g hg => by
          left
          have := hlb g (List.mem_cons_of_mem f hg)
          omega)
      rw [hframe, readByte_writeByte_self buf _ _ hpos]
      simp only [expectedStatus, hd]
    | some v =>
      simp only [hd] at heq
      cases hbt : encodeField f.kind v with
      | none =>
        simp only [hbt] at heq
        exact Option.noConfusion heq
      | some p =>
        obtain ⟨bytes, t⟩ := p
        simp only [hbt] at heq
        have hblen := encodeField_length f.kind v bytes t hbt
        have hb1len : (writeBytes buf (slotOff + f.offset) bytes).length
            = buf.length := by
          apply writeBytes_length
          omega
        have hb2len : (writeByte (writeBytes buf (slotOff + f.offset) bytes)
            (statusOff + i) (writtenStatus (readByte
              (writeBytes buf (slotOff + f.offset) bytes)
              (statusOff + i)) t)).length = buf.length := by
          rw [writeByte, writeBytes_length]
          · exact hb1len
          · simp only [List.length_singleton]
            rw [hb1len]
            omega
        have hframe := writeFieldsLoop_frame slotOff statusOff data fs2 (i + 1)
          _ buf2 (statusOff + i) heq
          (fun g hg => by rw [hb2len]; exact hub g (List.mem_cons_of_mem f hg))
          (by rw [hb2len]; omega)
          (by omega)
          (fun g hg => by
            left
            have := hlb g (List.mem_cons_of_mem f hg)
            omega)
        rw [hframe]
        rw [readByte_writeByte_self _ _ _ (by rw [hb1len]; exact hpos)]
        rw [readByte_writeBytes_left buf _ bytes (statusOff + i)
          (by omega) (by omega)]
        simp only [expectedStatus, hd, hbt]
  | cons g fs1x ih =>
    simp only [List.cons_append, List.length_cons] at *
    simp only [writeFieldsLoop] at heq
    have hgub := hub g (List.mem_cons_self g _)
    have hglb := hlb g (List.mem_cons_self g _)
    have hpos : statusOff + i + 1 ≤ buf.length := by omega
    have harith : statusOff + i + (fs1x.length + 1)
        = statusOff + (i + 1) + fs1x.length := by omega
    rw [harith]
    cases hd : dictLookup data g.name with
    | none =>
      simp only [hd] at heq
      have hb1len : (writeByte buf (statusOff + i)
          (clearMask (readByte buf (statusOff + i)) MASK_MODIFIED)).length
          = buf.length := by
        apply writeBytes_length
        simpa using hpos
      rw [ih (i + 1) _ heq
        (fun p hp => by rw [hb1len]; exact hub p (List.mem_cons_of_mem g hp))
        (fun p hp => by
          have := hlb p (List.mem_cons_of_mem g hp)
          simp only [List.length_append, List.length_cons] at this ⊢
          omega)
        (by rw [hb1len]; simp only [List.length_append, List.length_cons] at hst ⊢; omega)]
      congr 1
      apply readByte_writeBytes_right buf _ _ _ _ (by omega)
      simp only [List.length_singleton]
      omega
    | some v =>
      simp only [hd] at heq
      cases hbt : encodeField g.kind v with
      | none =>
        simp only [hbt] at heq
        exact Option.noConfusion heq
      | some p =>
        obtain ⟨bytes, t⟩ := p
        simp only [hbt] at heq
        have hblen := encodeField_length g.kind v bytes t hbt
        have hb1len : (writeBytes buf (slotOff + g.offset) bytes).length
            = buf.length := by
          apply writeBytes_length
          omega
        have hb2len : (writeByte (writeBytes buf (slotOff + g.offset) bytes)
            (statusOff + i) (writtenStatus (readByte
              (writeBytes buf (slotOff + g.offset) bytes)
              (statusOff + i)) t)).length = buf.length := by
          rw [writeByte, writeBytes_length]
          · exact hb1len
          · simp only [List.length_singleton]
            rw [hb1len]
            omega
        rw [ih (i + 1) _ heq
          (fun p hp => by rw [hb2len]; exact hub p (List.mem_cons_of_mem g hp))
          (fun p hp => by
            have := hlb p (List.mem_cons_of_mem g hp)
            simp only [List.length_append, List.length_cons] at this ⊢
            omega)
          (by rw [hb2len]
              simp only [List.length_append, List.length_cons] at hst ⊢
              omega)]
        congr 1
        apply readByte_skip_two buf (slotOff + g.offset) bytes (statusOff + i)
            _ _ (by omega) (by omega)
        simp only [List.length_append, List.length_cons] at hglb
        omega

theorem writeFieldsLoop_content (slotOff statusOff : Nat)
    (data : List (String × Val)) (fs1 : List FieldInfo) (f : FieldInfo)
    (fs2 : List FieldInfo) (i : Nat) (buf buf2 : List Nat)
    (v : Val) (bytes : List Nat) (t : Bool)
    (heq : writeFieldsLoop slotOff statusOff data i (fs1 ++ f :: fs2) buf
      = some buf2)
    (hub : ∀ g ∈ fs1 ++ f :: fs2, slotOff + g.offset + g.kind.size ≤ buf.length)
    (hlb : ∀ g ∈ fs1 ++ f :: fs2,
      statusOff + i + (fs1 ++ f :: fs2).length ≤ slotOff + g.offset)
    (hst : statusOff + i + (fs1 ++ f :: fs2).length ≤ buf.length)
    (hdisj : (fs1 ++ f :: fs2).Pairwise
      fun a b => a.offset + a.kind.size ≤ b.offset)
    (hd : dictLookup data f.name = some v)
    (hbt : encodeField f.kind v = some (bytes, t)) :
    readBytes buf2 (slotOff + f.offset) bytes.length = bytes := by
  induction fs1 generalizing i buf with
  | nil =>
    simp only [List.nil_append, List.length_cons] at *
    simp only [writeFieldsLoop, hd, hbt] at heq
    have hblen := encodeField_length f.kind v bytes t hbt
    have hfub := hub f (List.mem_cons_self f fs2)
    have hflb := hlb f (List.mem_cons_self f fs2)
    have hb1len : (writeBytes buf (slotOff + f.offset) bytes).length
        = buf.length := by
      apply writeBytes_length
      omega
    have hb2len : (writeByte (writeBytes buf (slotOff + f.offset) bytes)
        (statusOff + i) (writtenStatus (readByte
          (writeBytes buf (slotOff + f.offset) bytes)
          (statusOff + i)) t)).length = buf.length := by
      rw [writeByte, writeBytes_length]
      · exact hb1len
      · simp only [List.length_singleton]
        rw [hb1len]
        omega
    have hpairs := (List.pairwise_cons.mp hdisj).1
    have hframe := writeFieldsLoop_frame_bytes slotOff statusOff data fs2
      (i + 1) _ buf2 (slotOff + f.offset) bytes.length heq
      (fun g hg => by rw [hb2len]; exact hub g (List.mem_cons_of_mem f hg))
      (by rw [hb2len]; omega)
      (by right; omega)
      (fun g hg => by
        left
        have := hpairs g hg
        omega)
    rw [hframe]
    rw [writeByte]
    rw [readBytes_writeBytes_right _ _ _ _ _
      (by simp only [List.length_singleton]; omega) (by rw [hb1len]; omega)]
    exact readBytes_writeBytes_self buf _ bytes (by omega)
  | cons g fs1x ih =>
    simp only [List.cons_append, List.length_cons] at *
    simp only [writeFieldsLoop] at heq
    have hgub := hub g (List.mem_cons_self g _)
    have hglb := hlb g (List.mem_cons_self g _)
    have hpos : statusOff + i + 1 ≤ buf.length := by omega
    have hdisj2 := (List.pairwise_cons.mp hdisj).2
    cases hdg : dictLookup data g.name with
    | none =>
      simp only [hdg] at heq
      have hb1len : (writeByte buf (statusOff + i)
          (clearMask (readByte buf (statusOff + i)) MASK_MODIFIED)).length
          = buf.length := by
        apply writeBytes_length
        simpa using hpos
      exact ih (i + 1) _ heq
        (fun p hp => by rw [hb1len]; exact hub p (List.mem_cons_of_mem g hp))
        (fun p hp => by
          have := hlb p (List.mem_cons_of_mem g hp)
          simp only [List.length_append, List.length_cons] at this ⊢
          omega)
        (by rw [hb1len]
            simp only [List.length_append, List.length_cons] at hst ⊢
            omega)
        hdisj2
    | some w =>
      simp only [hdg] at heq
      cases hbw : encodeField g.kind w with
      | none =>
        simp only [hbw] at heq
        exact Option.noConfusion heq
      | some p =>
        obtain ⟨bytesg, tg⟩ := p
        simp only [hbw] at heq
        have hblen := encodeField_length g.kind w bytesg tg hbw
        have hb1len : (writeBytes buf (slotOff + g.offset) bytesg).length
            = buf.length := by
          apply writeBytes_length
          omega
        have hb2len : (writeByte (writeBytes buf (slotOff + g.offset) bytesg)
            (statusOff + i) (writtenStatus (readByte
              (writeBytes buf (slotOff + g.offset) bytesg)
              (statusOff + i)) tg)).length = buf.length := by
          rw [writeByte, writeBytes_length]
          · exact hb1len
          · simp only [List.length_singleton]
            rw [hb1len]
            omega
        exact ih (i + 1) _ heq
          (fun p hp => by rw [hb2len]; exact hub p (List.mem_cons_of_mem g hp))
          (fun p hp => by
            have := hlb p (List.mem_cons_of_mem g hp)
            simp only [List.length_append, List.length_cons] at this ⊢
            omega)
          (by rw [hb2len]
              simp only [List.length_append, List.length_cons] at hst ⊢
              omega)
          hdisj2

/-! ## `_write_to_slot` assembled -/

theorem writeToSlot_eq (s : Shm) (i : Nat) (data : List (String × Val))
    (s2 : Shm) (heq : writeToSlot s i data = some s2) :
    ∃ b1, writeFieldsLoop (s.slotOffset i) (s.slotOffset i + 8) data 0
        s.layout.fields
        (writeU64 s.buf (s.slotOffset i) (readU64 s.buf (s.slotOffset i) + 1))
        = some b1 ∧
      s2 = { s with buf := (writeU64 b1
        (s.slotOffset i + s.layout.totalSize - 8)
        (readU64 s.buf (s.slotOffset i) + 1)) } := by
  simp only [writeToSlot] at heq
  cases hl : writeFieldsLoop (s.slotOffset i) (s.slotOffset i + 8) data 0
      s.layout.fields
      (writeU64 s.buf (s.slotOffset i) (readU64 s.buf (s.slotOffset i) + 1))
      with
  | none =>
    rw [hl] at heq
    exact Option.noConfusion heq
  | some b1 =>
    rw [hl] at heq
    simp only [Option.some.injEq] at heq
    exact ⟨b1, rfl, heq.symm⟩

theorem writeToSlot_spec (s : Shm) (i : Nat) (data : List (String × Val))
    (s2 : Shm) (hs : ShmWF s) (hi : i < s.slots)
    (heq : writeToSlot s i data = some s2) :
    s2.layout = s.layout ∧ s2.slots = s.slots ∧
    s2.writeBuffer = s.writeBuffer ∧
    s2.writeBufferDirty = s.writeBufferDirty ∧
    s2.buf.length = s.buf.length ∧
    readU64 s2.buf (s.slotOffset i)
      = (readU64 s.buf (s.slotOffset i) + 1) % 2 ^ 64 ∧
    readU64 s2.buf (s.slotOffset i + s.layout.totalSize - 8)
      = (readU64 s.buf (s.slotOffset i) + 1) % 2 ^ 64 := by
  obtain ⟨b1, hloop, hs2⟩ := writeToSlot_eq s i data s2 heq
  have hregion := slot_region_ub s hs i hi
  obtain ⟨hwf, hslots, hblen⟩ := hs
  have hhdr := hwf.header_ub
  have hb0len : (writeU64 s.buf (s.slotOffset i)
      (readU64 s.buf (s.slotOffset i) + 1)).length = s.buf.length := by
    apply writeBytes_length
    rw [natToBytesLE_length]
    omega
  have hub0 : ∀ f ∈ s.layout.fields,
      s.slotOffset i + f.offset + f.kind.size ≤ (writeU64 s.buf (s.slotOffset i)
        (readU64 s.buf (s.slotOffset i) + 1)).length := by
    intro f hf
    rw [hb0len]
    have := hwf.field_ub f hf
    omega
  have hst0 : s.slotOffset i + 8 + 0 + s.layout.fields.length
      ≤ (writeU64 s.buf (s.slotOffset i)
        (readU64 s.buf (s.slotOffset i) + 1)).length := by
    rw [hb0len]
    omega
  have hb1len : b1.length = s.buf.length := by
    rw [writeFieldsLoop_length _ _ data s.layout.fields 0 _ b1 hloop hub0 hst0,
      hb0len]
  have hendlen : s.slotOffset i + s.layout.totalSize - 8 + 8 ≤ b1.length := by
    rw [hb1len]
    omega
  subst hs2
  refine ⟨rfl, rfl, rfl, rfl, ?_, ?_, ?_⟩
  · show (writeU64 b1 (s.slotOffset i + s.layout.totalSize - 8)
      (readU64 s.buf (s.slotOffset i) + 1)).length = s.buf.length
    rw [writeU64, writeBytes_length]
    · exact hb1len
    · rw [natToBytesLE_length]
      exact hendlen
  · have hfr := writeFieldsLoop_frame_bytes (s.slotOffset i)
      (s.slotOffset i + 8) data s.layout.fields 0 _ b1 (s.slotOffset i) 8
      hloop hub0 hst0 (by omega)
      (fun f hf => by
        left
        have := hwf.field_lb f hf
        omega)
    have hfr64 : readU64 b1 (s.slotOffset i)
        = readU64 (writeU64 s.buf (s.slotOffset i)
            (readU64 s.buf (s.slotOffset i) + 1)) (s.slotOffset i) :=
      congrArg bytesToNatLE hfr
    have hself := readU64_writeU64_self s.buf (s.slotOffset i)
      (readU64 s.buf (s.slotOffset i) + 1) (by omega)
    show readU64 (writeU64 b1 (s.slotOffset i + s.layout.totalSize - 8)
      (readU64 s.buf (s.slotOffset i) + 1)) (s.slotOffset i) = _
    rw [readU64, writeU64,
      readBytes_writeBytes_left _ _ _ _ 8 (by omega) (by omega)]
    rw [show bytesToNatLE (readBytes b1 (s.slotOffset i) 8)
        = readU64 b1 (s.slotOffset i) from rfl]
    rw [hfr64, hself]
  · show readU64 (writeU64 b1 (s.slotOffset i + s.layout.totalSize - 8)
      (readU64 s.buf (s.slotOffset i) + 1))
      (s.slotOffset i + s.layout.totalSize - 8) = _
    rw [readU64_writeU64_self _ _ _ hendlen]

theorem writeToSlot_status (s : Shm) (i : Nat) (data : List (String × Val))
    (s2 : Shm) (hs : ShmWF s) (hi : i < s.slots)
    (heq : writeToSlot s i data = some s2)
    (fs1 : List FieldInfo) (f : FieldInfo) (fs2 : List FieldInfo)
    (hfields : s.layout.fields = fs1 ++ f :: fs2) :
    readByte s2.buf (s.slotOffset i + 8 + fs1.length)
      = expectedStatus data f
          (readByte s.buf (s.slotOffset i + 8 + fs1.length)) := by
  obtain ⟨b1, hloop, hs2⟩ := writeToSlot_eq s i data s2 heq
  have hregion := slot_region_ub s hs i hi
  obtain ⟨hwf, hslots, hblen⟩ := hs
  have hhdr := hwf.header_ub
  have hn : fs1.length < s.layout.fields.length := by
    rw [hfields]
    simp only [List.length_append, List.length_cons]
    omega
  have hb0len : (writeU64 s.buf (s.slotOffset i)
      (readU64 s.buf (s.slotOffset i) + 1)).length = s.buf.length := by
    apply writeBytes_length
    rw [natToBytesLE_length]
    omega
  have hub0 : ∀ g ∈ fs1 ++ f :: fs2,
      s.slotOffset i + g.offset + g.kind.size ≤ (writeU64 s.buf (s.slotOffset i)
        (readU64 s.buf (s.slotOffset i) + 1)).length := by
    intro g hg
    rw [hb0len]
    have := hwf.field_ub g (by rw [hfields]; exact hg)
    omega
  have hlb0 : ∀ g ∈ fs1 ++ f :: fs2,
      s.slotOffset i + 8 + 0 + (fs1 ++ f :: fs2).length
        ≤ s.slotOffset i + g.offset := by
    intro g hg
    have := hwf.field_lb g (by rw [hfields]; exact hg)
    rw [hfields] at this
    omega
  have hst0 : s.slotOffset i + 8 + 0 + (fs1 ++ f :: fs2).length
      ≤ (writeU64 s.buf (s.slotOffset i)
        (readU64 s.buf (s.slotOffset i) + 1)).length := by
    rw [hb0len]
    rw [hfields] at hhdr
    omega
  rw [hfields] at hloop
  have hb1len : b1.length = s.buf.length := by
    rw [writeFieldsLoop_length _ _ data _ 0 _ b1 hloop hub0 hst0, hb0len]
  have hstat := writeFieldsLoop_status (s.slotOffset i) (s.slotOffset i + 8)
    data fs1 f fs2 0 _ b1 hloop hub0 hlb0 hst0
  simp only [Nat.add_zero] at hstat
  subst hs2
  show readByte (writeU64 b1 (s.slotOffset i + s.layout.totalSize - 8)
    (readU64 s.buf (s.slotOffset i) + 1))
    (s.slotOffset i + 8 + fs1.length) = _
  rw [writeU64, readByte_writeBytes_left b1 _ _ _ (by omega)
    (by rw [hb1len]; omega)]
  rw [hstat]
  congr 1
  apply readByte_writeBytes_right
  · rw [natToBytesLE_length]
    omega
  · omega

theorem writeToSlot_content (s : Shm) (i : Nat) (data : List (String × Val))
    (s2 : Shm) (hs : ShmWF s) (hi : i < s.slots)
    (heq : writeToSlot s i data = some s2)
    (fs1 : List FieldInfo) (f : FieldInfo) (fs2 : List FieldInfo)
    (hfields : s.layout.fields = fs1 ++ f :: fs2)
    (v : Val) (bytes : List Nat) (t : Bool)
    (hd : dictLookup data f.name = some v)
    (hbt : encodeField f.kind v = some (bytes, t)) :
    readBytes s2.buf (s.slotOffset i + f.offset) bytes.length = bytes := by
  obtain ⟨b1, hloop, hs2⟩ := writeToSlot_eq s i data s2 heq
  have hregion := slot_region_ub s hs i hi
  obtain ⟨hwf, hslots, hblen⟩ := hs
  have hhdr := hwf.header_ub
  have hfmem : f ∈ s.layout.fields := by
    rw [hfields]
    exact List.mem_append_right fs1 (List.mem_cons_self f fs2)
  have hfub := hwf.field_ub f hfmem
  have hblenb := encodeField_length f.kind v bytes t hbt
  have hb0len : (writeU64 s.buf (s.slotOffset i)
      (readU64 s.buf (s.slotOffset i) + 1)).length = s.buf.length := by
    apply writeBytes_length
    rw [natToBytesLE_length]
    omega
  have hub0 : ∀ g ∈ fs1 ++ f :: fs2,
      s.slotOffset i + g.offset + g.kind.size ≤ (writeU64 s.buf (s.slotOffset i)
        (readU64 s.buf (s.slotOffset i) + 1)).length := by
    intro g hg
    rw [hb0len]
    have := hwf.field_ub g (by rw [hfields]; exact hg)
    omega
  have hlb0 : ∀ g ∈ fs1 ++ f :: fs2,
      s.slotOffset i + 8 + 0 + (fs1 ++ f :: fs2).length
        ≤ s.slotOffset i + g.offset := by
    intro g hg
    have := hwf.field_lb g (by rw [hfields]; exact hg)
    rw [hfields] at this
    omega
  have hst0 : s.slotOffset i + 8 + 0 + (fs1 ++ f :: fs2).length
      ≤ (writeU64 s.buf (s.slotOffset i)
        (readU64 s.buf (s.slotOffset i) + 1)).length := by
    rw [hb0len]
    rw [hfields] at hhdr
    omega
  have hdisj : (fs1 ++ f :: fs2).Pairwise
      (fun a b => a.offset + a.kind.size ≤ b.offset) := by
    rw [← hfields]
    exact hwf.disjoint
  rw [hfields] at hloop
  have hb1len : b1.length = s.buf.length := by
    rw [writeFieldsLoop_length _ _ data _ 0 _ b1 hloop hub0 hst0, hb0len]
  have hcont := writeFieldsLoop_content (s.slotOffset i) (s.slotOffset i + 8)
    data fs1 f fs2 0 _ b1 v bytes t hloop hub0 hlb0 hst0 hdisj hd hbt
  subst hs2
  show readBytes (writeU64 b1 (s.slotOffset i + s.layout.totalSize - 8)
    (readU64 s.buf (s.slotOffset i) + 1))
    (s.slotOffset i + f.offset) bytes.length = bytes
  rw [writeU64, readBytes_writeBytes_left b1 _ _ _ _ (by omega)
    (by rw [hb1len]; omega)]
  exact hcont

theorem writeToSlot_isSome (s : Shm) (i : Nat) (data : List (String × Val))
    (hs : ShmWF s) (hi : i < s.slots)
    (henc : ∀ f ∈ s.layout.fields, ∀ v, dictLookup data f.name = some v →
      (encodeField f.kind v).isSome) :
    (writeToSlot s i data).isSome := by
  have hregion := slot_region_ub s hs i hi
  obtain ⟨hwf, hslots, hblen⟩ := hs
  have hhdr := hwf.header_ub
  have hb0len : (writeU64 s.buf (s.slotOffset i)
      (readU64 s.buf (s.slotOffset i) + 1)).length = s.buf.length := by
    apply writeBytes_length
    rw [natToBytesLE_length]
    omega
  obtain ⟨b1, hloop, _⟩ := writeFieldsLoop_some (s.slotOffset i)
    (s.slotOffset i + 8) data s.layout.fields 0
    (writeU64 s.buf (s.slotOffset i) (readU64 s.buf (s.slotOffset i) + 1))
    (by intro g hg
        rw [hb0len]
        have := hwf.field_ub g hg
        omega)
    (by rw [hb0len]; omega)
    henc
  simp only [writeToSlot, hloop, Option.isSome_some]

theorem writeToSlot_frame (s : Shm) (i : Nat) (data : List (String × Val))
    (s2 : Shm) (hs : ShmWF s) (hi : i < s.slots)
    (heq : writeToSlot s i data = some s2) (qoff qlen : Nat)
    (hq : qoff + qlen ≤ s.slotOffset i ∨
      s.slotOffset i + s.layout.totalSize ≤ qoff) :
    readBytes s2.buf qoff qlen = readBytes s.buf qoff qlen := by
  obtain ⟨b1, hloop, hs2⟩ := writeToSlot_eq s i data s2 heq
  have hregion := slot_region_ub s hs i hi
  obtain ⟨hwf, hslots, hblen⟩ := hs
  have hhdr := hwf.header_ub
  have hb0len : (writeU64 s.buf (s.slotOffset i)
      (readU64 s.buf (s.slotOffset i) + 1)).length = s.buf.length := by
    apply writeBytes_length
    rw [natToBytesLE_length]
    omega
  have hub0 : ∀ g ∈ s.layout.fields,
      s.slotOffset i + g.offset + g.kind.size ≤ (writeU64 s.buf (s.slotOffset i)
        (readU64 s.buf (s.slotOffset i) + 1)).length := by
    intro g hg
    rw [hb0len]
    have := hwf.field_ub g hg
    omega
  have hst0 : s.slotOffset i + 8 + 0 + s.layout.fields.length
      ≤ (writeU64 s.buf (s.slotOffset i)
        (readU64 s.buf (s.slotOffset i) + 1)).length := by
    rw [hb0len]
    omega
  have hb1len : b1.length = s.buf.length := by
    rw [writeFieldsLoop_length _ _ data _ 0 _ b1 hloop hub0 hst0, hb0len]
  subst hs2
  show readBytes (writeU64 b1 (s.slotOffset i + s.layout.totalSize - 8)
    (readU64 s.buf (s.slotOffset i) + 1)) qoff qlen = _
  have hstep1 : readBytes (writeU64 b1
      (s.slotOffset i + s.layout.totalSize - 8)
      (readU64 s.buf (s.slotOffset i) + 1)) qoff qlen
      = readBytes b1 qoff qlen := by
    rw [writeU64]
    rcases hq with h | h
    · exact readBytes_writeBytes_left b1 _ _ _ _ (by omega)
        (by rw [hb1len]; omega)
    · exact readBytes_writeBytes_right b1 _ _ _ _
        (by rw [natToBytesLE_length]; omega) (by rw [hb1len]; omega)
  have hstep2 : readBytes b1 qoff qlen
      = readBytes (writeU64 s.buf (s.slotOffset i)
          (readU64 s.buf (s.slotOffset i) + 1)) qoff qlen := by
    apply writeFieldsLoop_frame_bytes (s.slotOffset i) (s.slotOffset i + 8)
      data s.layout.fields 0 _ b1 qoff qlen hloop hub0 hst0
    · rcases hq with h | h
      · left; omega
      · right; omega
    · intro g hg
      have h1 := hwf.field_lb g hg
      have h2 := hwf.field_ub g hg
      rcases hq with h | h
      · left; omega
      · right; omega
  have hstep3 : readBytes (writeU64 s.buf (s.slotOffset i)
      (readU64 s.buf (s.slotOffset i) + 1)) qoff qlen
      = readBytes s.buf qoff qlen := by
    rw [writeU64]
    rcases hq with h | h
    · exact readBytes_writeBytes_left s.buf _ _ _ _ (by omega) (by omega)
    · exact readBytes_writeBytes_right s.buf _ _ _ _
        (by rw [natToBytesLE_length]; omega) (by omega)
  rw [hstep1, hstep2, hstep3]

/-! ## `_read_from_slot` characterized -/

theorem readFieldsLoop_length (buf : List Nat) (so sto i : Nat)
    (fs : List FieldInfo) :
    (readFieldsLoop buf so sto i fs).length = fs.length := by
  induction fs generalizing i with
  | nil => rfl
  | cons f rest ih => simp [readFieldsLoop, ih]

theorem readFieldsLoop_append (buf : List Nat) (so sto i : Nat)
    (fs1 fs2 : List FieldInfo) :
    readFieldsLoop buf so sto i (fs1 ++ fs2)
      = readFieldsLoop buf so sto i fs1
        ++ readFieldsLoop buf so sto (i + fs1.length) fs2 := by
  induction fs1 generalizing i with
  | nil => simp [readFieldsLoop]
  | cons f rest ih =>
    simp only [List.cons_append, readFieldsLoop, List.length_cons]
    rw [show i + (rest.length + 1) = i + 1 + rest.length from by omega]
    congr 1
    exact ih (i + 1)

/-- The record entry for the field at position `fs1.length`. -/
theorem readFieldsLoop_entry (buf : List Nat) (so sto : Nat)
    (fs1 : List FieldInfo) (f : FieldInfo) (fs2 : List FieldInfo) :
    (readFieldsLoop buf so sto 0 (fs1 ++ f :: fs2))[fs1.length]?
      = some { name := f.name
               value := decodeField buf (so + f.offset) f.kind
               status := readByte buf (sto + fs1.length) } := by
  rw [readFieldsLoop_append]
  rw [List.getElem?_append_right (by rw [readFieldsLoop_length])]
  rw [readFieldsLoop_length]
  simp only [Nat.sub_self, Nat.zero_add, readFieldsLoop]
  simp

theorem readFromSlot_not_torn (s : Shm) (i : Nat) (rm : Bool)
    (h : readU64 s.buf (s.slotOffset i)
      = readU64 s.buf (s.slotOffset i + s.layout.totalSize - 8)) :
    (readFromSlot s i rm).1
      = some (readFieldsLoop s.buf (s.slotOffset i) (s.slotOffset i + 8) 0
          s.layout.fields) := by
  unfold readFromSlot
  rw [if_neg (by simpa using h)]
  cases rm <;> simp

/-- A read without `reset_modified` leaves the handle state (buffer included)
untouched, whether or not it was torn. -/
theorem readFromSlot_noreset_state (s : Shm) (i : Nat) :
    (readFromSlot s i false).2 = s := by
  unfold readFromSlot
  simp only [Bool.false_eq_true, if_false]
  split <;> rfl

/-! ## Decode after encode, per kind -/

theorem readBytes_take_of_le (buf : List Nat) (off a b : Nat) (hab : a ≤ b) :
    readBytes buf off a = (readBytes buf off b).take a := by
  unfold readBytes
  rw [List.take_take]
  congr 1
  omega

theorem readBytes_add (buf : List Nat) (off a len : Nat) :
    readBytes buf (off + a) len = (readBytes buf off (a + len)).drop a := by
  unfold readBytes
  rw [List.drop_take, List.drop_drop]
  rw [show a + len - a = len from by omega]

theorem decodeElems_flatMap (isz : Nat) (l : List Nat)
    (h : ∀ e ∈ l, e < 256 ^ isz) :
    decodeElems isz l.length (l.flatMap (natToBytesLE isz)) = l := by
  induction l with
  | nil => rfl
  | cons e es ih =>
    simp only [List.flatMap_cons, List.length_cons, decodeElems]
    rw [List.take_left' (natToBytesLE_length isz e)]
    rw [List.drop_left' (natToBytesLE_length isz e)]
    rw [bytesToNatLE_natToBytesLE]
    rw [Nat.mod_eq_of_lt (h e (List.mem_cons_self e es))]
    rw [ih (fun x hx => h x (List.mem_cons_of_mem e hx))]

theorem decodeField_f64 (buf : List Nat) (off bits : Nat)
    (hb : bits < 2 ^ 64)
    (hr : readBytes buf off 8 = natToBytesLE 8 bits) :
    decodeField buf off (.scalar .f64) = .f64 bits := by
  simp only [decodeField, hr, bytesToNatLE_natToBytesLE]
  congr 1
  have h256 : (256 : Nat) ^ 8 = 2 ^ 64 := by norm_num
  rw [h256]
  omega

theorem decodeField_i32 (buf : List Nat) (off : Nat) (v : Int)
    (hv1 : -(2 ^ 31) ≤ v) (hv2 : v < 2 ^ 31)
    (hr : readBytes buf off 4 = natToBytesLE 4 (v % (2 ^ 32 : Int)).toNat) :
    decodeField buf off (.scalar .i32) = .i32 v := by
  simp only [decodeField, hr, bytesToNatLE_natToBytesLE]
  have h1 : (0 : Int) ≤ v % (2 ^ 32 : Int) := Int.emod_nonneg v (by norm_num)
  have h2 : v % (2 ^ 32 : Int) < 2 ^ 32 := Int.emod_lt_of_pos v (by norm_num)
  have h256 : (256 : Nat) ^ 4 = 2 ^ 32 := by norm_num
  have h3 : (v % (2 ^ 32 : Int)).toNat % 256 ^ 4 = (v % (2 ^ 32 : Int)).toNat := by
    apply Nat.mod_eq_of_lt
    rw [h256]
    omega
  rw [h3]
  congr 1
  split_ifs with hlt <;> omega

theorem decodeField_bool (buf : List Nat) (off : Nat) (b : Bool)
    (hr : readBytes buf off 1 = [if b then 1 else 0]) :
    decodeField buf off (.scalar .boolS) = .boolV b := by
  simp only [decodeField]
  congr 1
  unfold readByte
  rw [hr]
  cases b <;> simp

theorem encodeField_string_eq (mc : Nat) (cps : List Nat)
    (hvalid : ∀ c ∈ cps.take mc, IsScalarValue c) :
    encodeField (.string mc) (.str cps)
      = some (natToBytesLE 4 (utf8Encode (cps.take mc)).length
          ++ utf8Encode (cps.take mc), decide (cps.length > mc)) := by
  simp only [encodeField]
  rw [if_pos]
  exact List.all_eq_true.mpr fun c hc =>
    decide_eq_true (hvalid c hc)

theorem decodeField_string (buf : List Nat) (off mc : Nat) (cps : List Nat)
    (hvalid : ∀ c ∈ cps.take mc, IsScalarValue c)
    (hlen : (utf8Encode (cps.take mc)).length < 2 ^ 32)
    (hr : readBytes buf off (4 + (utf8Encode (cps.take mc)).length)
      = natToBytesLE 4 (utf8Encode (cps.take mc)).length
        ++ utf8Encode (cps.take mc)) :
    decodeField buf off (.string mc) = .str (cps.take mc) := by
  have hpfx : readBytes buf off 4
      = natToBytesLE 4 (utf8Encode (cps.take mc)).length := by
    rw [readBytes_take_of_le buf off 4 (4 + (utf8Encode (cps.take mc)).length)
      (by omega), hr]
    rw [List.take_left' (natToBytesLE_length 4 _)]
  have hlenval : readU32 buf off = (utf8Encode (cps.take mc)).length := by
    unfold readU32
    rw [hpfx, bytesToNatLE_natToBytesLE]
    apply Nat.mod_eq_of_lt
    have h256 : (256 : Nat) ^ 4 = 2 ^ 32 := by norm_num
    rw [h256]
    exact hlen
  have hpayload : readBytes buf (off + 4) (utf8Encode (cps.take mc)).length
      = utf8Encode (cps.take mc) := by
    rw [readBytes_add, hr]
    rw [List.drop_left' (natToBytesLE_length 4 _)]
  simp only [decodeField, hlenval, hpayload,
    utf8DecodeIgnore_utf8Encode _ hvalid]

theorem decodeField_array (buf : List Nat) (off : Nat) (d : Dtype)
    (shape elems : List Nat)
    (hlen : elems.length = shape.prod)
    (helem : ∀ e ∈ elems, e < 256 ^ d.itemsize)
    (hr : readBytes buf off (shape.prod * d.itemsize)
      = elems.flatMap (natToBytesLE d.itemsize)) :
    decodeField buf off (.array d shape) = .arr shape elems := by
  simp only [decodeField]
  congr 1
  rw [hr, ← hlen]
  exact decodeElems_flatMap d.itemsize elems helem

/-- For a value that fits its field's declared bounds, the encode reports no
truncation and the decode recovers the value exactly from the written
bytes. -/
theorem decodeField_encodeField (k : FieldKind) (v : Val) (bytes : List Nat)
    (t : Bool) (buf : List Nat) (off : Nat)
    (hv : ValFits k v) (hbt : encodeField k v = some (bytes, t))
    (hr : readBytes buf off bytes.length = bytes) :
    decodeField buf off k = v ∧ t = false := by
  cases k with
  | scalar st =>
    cases st <;> cases v <;> try exact hv.elim
    · rename_i bits
      simp only [encodeField, Option.some.injEq, Prod.mk.injEq] at hbt
      obtain ⟨hb1, hb2⟩ := hbt
      subst hb1
      rw [natToBytesLE_length] at hr
      exact ⟨decodeField_f64 buf off bits hv hr, hb2.symm⟩
    · rename_i n
      simp only [encodeField, Option.some.injEq, Prod.mk.injEq] at hbt
      obtain ⟨hb1, hb2⟩ := hbt
      subst hb1
      rw [natToBytesLE_length] at hr
      exact ⟨decodeField_i32 buf off n hv.1 hv.2 hr, hb2.symm⟩
    · rename_i b
      simp only [encodeField, Option.some.injEq, Prod.mk.injEq] at hbt
      obtain ⟨hb1, hb2⟩ := hbt
      subst hb1
      simp only [List.length_singleton] at hr
      exact ⟨decodeField_bool buf off b hr, hb2.symm⟩
  | string mc =>
    cases v <;> try exact hv.elim
    rename_i cps
    obtain ⟨hle, hvalid, hlen⟩ := hv
    have htake : cps.take mc = cps := List.take_of_length_le hle
    rw [encodeField_string_eq mc cps (by rw [htake]; exact hvalid)] at hbt
    simp only [Option.some.injEq, Prod.mk.injEq] at hbt
    obtain ⟨hb1, hb2⟩ := hbt
    subst hb1
    simp only [List.length_append, natToBytesLE_length] at hr
    have := decodeField_string buf off mc cps
      (by rw [htake]; exact hvalid) (by rw [htake]; exact hlen)
      (by rw [htake] at *; exact hr)
    refine ⟨by rw [this, htake], ?_⟩
    rw [← hb2]
    simp only [decide_eq_false_iff_not]
    omega
  | array d shape =>
    cases v <;> try exact hv.elim
    rename_i vshape elems
    obtain ⟨hsh, hlen, helem⟩ := hv
    subst hsh
    simp only [encodeField, Option.some.injEq, Prod.mk.injEq] at hbt
    rw [if_neg (by omega), if_neg (by omega)] at hbt
    obtain ⟨hb1, hb2⟩ := hbt
    subst hb1
    rw [flatMap_natToBytesLE_length, hlen] at hr
    refine ⟨decodeField_array buf off d vshape elems hlen helem hr, ?_⟩
    simp [← hb2]

/-! ## Additional helpers for the claims -/

/-- A successful slot write implies every looked-up field value encoded. -/
theorem writeFieldsLoop_encOk (slotOff statusOff : Nat)
    (data : List (String × Val)) (fs : List FieldInfo) (i : Nat)
    (buf buf2 : List Nat)
    (heq : writeFieldsLoop slotOff statusOff data i fs buf = some buf2) :
    ∀ f ∈ fs, ∀ v, dictLookup data f.name = some v →
      (encodeField f.kind v).isSome := by
  induction fs generalizing i buf with
  | nil => simp
  | cons f rest ih =>
    intro g hg v hv
    simp only [writeFieldsLoop] at heq
    rcases List.mem_cons.mp hg with rfl | hgr
    · simp only [hv] at heq
      cases hbt : encodeField g.kind v with
      | none =>
        simp only [hbt] at heq
        exact Option.noConfusion heq
      | some p => simp
    · cases hd : dictLookup data f.name with
      | none =>
        simp only [hd] at heq
        exact ih (i + 1) _ heq g hgr v hv
      | some w =>
        simp only [hd] at heq
        cases hbt : encodeField f.kind w with
        | none =>
          simp only [hbt] at heq
          exact Option.noConfusion heq
        | some p =>
          obtain ⟨bytes, t⟩ := p
          simp only [hbt] at heq
          exact ih (i + 1) _ heq g hgr v hv

theorem writeToSlot_encOk (s : Shm) (i : Nat) (data : List (String × Val))
    (s2 : Shm) (heq : writeToSlot s i data = some s2) :
    ∀ f ∈ s.layout.fields, ∀ v, dictLookup data f.name = some v →
      (encodeField f.kind v).isSome := by
  obtain ⟨b1, hloop, _⟩ := writeToSlot_eq s i data s2 heq
  exact writeFieldsLoop_encOk _ _ data s.layout.fields 0 _ b1 hloop

/-- Decoding an encoded prefix peels it off unchanged. -/
theorem utf8DecodeIgnore_append (cps : List Nat)
    (h : ∀ c ∈ cps, IsScalarValue c) (rest : List Nat) :
    utf8DecodeIgnore (utf8Encode cps ++ rest) = cps ++ utf8DecodeIgnore rest := by
  induction cps with
  | nil => simp [utf8Encode]
  | cons c cs ih =>
    simp only [utf8Encode, List.flatMap_cons, List.append_assoc] at *
    rw [utf8DecodeIgnore_encodeCp c (h c (by simp))]
    rw [ih (fun x hx => h x (by simp [hx]))]
    simp

/-- `0xFF` can occur in no UTF-8 sequence; the `ignore` handler drops it. -/
theorem utf8DecodeIgnore_ff (l : List Nat) :
    utf8DecodeIgnore (0xFF :: l) = utf8DecodeIgnore l := by
  unfold utf8DecodeIgnore
  simp only [List.length_cons, utf8DecodeIgnoreF]
  rw [show utf8Step 0xFF l = ([], 1) from by
    unfold utf8Step
    rw [if_neg (by omega), if_neg (by omega), if_neg (by omega),
      if_neg (by omega)]]
  simp only [List.nil_append, Nat.sub_self, List.drop_zero]

/-- The layout stage succeeds exactly when every field annotation parses:
it performs no duplicate-name or shape-positivity validation. -/
theorem isSome_map {α β : Type} (f : α → β) (o : Option α) :
    (Option.map f o).isSome = o.isSome := by
  cases o <;> rfl

theorem compileFields_isSome (decls : List (String × PyType)) :
    (compileFields decls).isSome ↔ ∀ d ∈ decls, (parseType d.2).isSome := by
  unfold compileFields
  rw [isSome_map]
  induction decls with
  | nil => simp [List.mapM, List.mapM.loop]
  | cons d rest ih =>
    simp only [List.mapM_cons, List.mem_cons]
    cases hp : parseType d.2 with
    | none => simp [hp]
    | some k =>
      simp only [hp, Option.map_some, Option.some_bind, Option.bind_eq_bind]
      constructor
      · intro h
        intro e he
        rcases he with rfl | her
        · simp [hp]
        · cases hm : rest.mapM fun d => (parseType d.2).map fun k => (d.1, k) with
          | none =>
            rw [hm] at h
            simp at h
          | some l =>
            exact ih.mp (by rw [hm]; simp) e her
      · intro h
        have := ih.mpr (fun e he => h e (Or.inr he))
        cases hm : rest.mapM fun d => (parseType d.2).map fun k => (d.1, k) with
        | none =>
          rw [hm] at this
          simp at this
        | some l => simp [hm]

/-- `_read_from_slot`'s reset loop: clears `MODIFIED` on exactly the status
bytes, leaving everything else intact. -/
theorem clearModifiedLoop_readByte (buf : List Nat) (so n q : Nat)
    (hlen : so + n ≤ buf.length) :
    readByte (clearModifiedLoop buf so n) q
      = if so ≤ q ∧ q < so + n then clearMask (readByte buf q) MASK_MODIFIED
        else readByte buf q := by
  induction n generalizing so buf with
  | zero =>
    simp only [clearModifiedLoop]
    rw [if_neg (by omega)]
  | succ m ih =>
    simp only [clearModifiedLoop]
    have hw : (writeByte buf so (clearMask (readByte buf so)
        MASK_MODIFIED)).length = buf.length := by
      apply writeBytes_length
      simp only [List.length_singleton]
      omega
    rw [ih _ _ (by rw [hw]; omega)]
    by_cases h1 : so + 1 ≤ q ∧ q < so + 1 + m
    · rw [if_pos h1, if_pos (by omega)]
      congr 1
      apply readByte_writeBytes_right
      · simp only [List.length_singleton]
        omega
      · omega
    · rw [if_neg h1]
      by_cases h2 : q = so
      · subst h2
        rw [if_pos (by omega)]
        exact readByte_writeByte_self buf q _ (by omega)
      · rw [if_neg (by omega)]
        rcases Nat.lt_or_ge q so with h3 | h3
        · exact readByte_writeBytes_left buf _ _ _ (by omega) (by omega)
        · apply readByte_writeBytes_right
          · simp only [List.length_singleton]
            omega
          · omega

theorem clearModifiedLoop_length (buf : List Nat) (so n : Nat)
    (hlen : so + n ≤ buf.length) :
    (clearModifiedLoop buf so n).length = buf.length := by
  induction n generalizing so buf with
  | zero => rfl
  | succ m ih =>
    simp only [clearModifiedLoop]
    have hw : (writeByte buf so (clearMask (readByte buf so)
        MASK_MODIFIED)).length = buf.length := by
      apply writeBytes_length
      simp only [List.length_singleton]
      omega
    rw [ih _ _ (by rw [hw]; omega), hw]

/-- Every entry of a record carries the status byte of its own field. -/
theorem readFieldsLoop_mem (buf : List Nat) (so sto : Nat)
    (fs : List FieldInfo) (i : Nat) :
    ∀ fr ∈ readFieldsLoop buf so sto i fs,
      ∃ k, k < fs.length ∧ fr.status = readByte buf (sto + (i + k)) := by
  induction fs generalizing i with
  | nil => simp [readFieldsLoop]
  | cons f rest ih =>
    intro fr hfr
    simp only [readFieldsLoop, List.mem_cons] at hfr
    rcases hfr with rfl | hfr
    · exact ⟨0, by simp⟩
    · obtain ⟨k, hk, hst⟩ := ih (i + 1) fr hfr
      exact ⟨k + 1, by simpa using hk, by rw [hst]; congr 1; omega⟩

theorem getFifoMetadata_set (s : Shm) (w r c : Nat) (hf : s.isFifo = true)
    (hlen : 24 ≤ s.buf.length) (hw : w < 2 ^ 64) (hr : r < 2 ^ 64)
    (hc : c < 2 ^ 64) :
    getFifoMetadata (setFifoMetadata s w r c) = (w, r, c) := by
  unfold getFifoMetadata setFifoMetadata
  rw [if_pos hf]
  have hf2 : ({ s with buf := writeU64 (writeU64 (writeU64 s.buf 0 w) 8 r) 16 c } : Shm).isFifo = true := hf
  rw [if_pos hf2]
  have h0 : (writeU64 s.buf 0 w).length = s.buf.length := by
    apply writeBytes_length
    rw [natToBytesLE_length]
    omega
  have h8 : (writeU64 (writeU64 s.buf 0 w) 8 r).length = s.buf.length := by
    rw [writeU64, writeBytes_length]
    · exact h0
    · rw [natToBytesLE_length, h0]
      omega
  refine congrArg₂ Prod.mk ?_ (congrArg₂ Prod.mk ?_ ?_)
  · show readU64 (writeU64 (writeU64 (writeU64 s.buf 0 w) 8 r) 16 c) 0 = w
    have e1 : readBytes (writeU64 (writeU64 (writeU64 s.buf 0 w) 8 r) 16 c)
        0 8 = readBytes (writeU64 (writeU64 s.buf 0 w) 8 r) 0 8 := by
      exact readBytes_writeBytes_left _ 16 (natToBytesLE 8 c) 0 8 (by omega)
        (by rw [h8]; omega)
    have e2 : readBytes (writeU64 (writeU64 s.buf 0 w) 8 r) 0 8
        = readBytes (writeU64 s.buf 0 w) 0 8 := by
      exact readBytes_writeBytes_left _ 8 (natToBytesLE 8 r) 0 8 (by omega)
        (by rw [h0]; omega)
    show bytesToNatLE (readBytes (writeU64 (writeU64 (writeU64 s.buf 0 w)
      8 r) 16 c) 0 8) = w
    rw [e1, e2]
    rw [show bytesToNatLE (readBytes (writeU64 s.buf 0 w) 0 8)
        = readU64 (writeU64 s.buf 0 w) 0 from rfl]
    rw [readU64_writeU64_self _ _ _ (by omega)]
    omega
  · show readU64 (writeU64 (writeU64 (writeU64 s.buf 0 w) 8 r) 16 c) 8 = r
    have e1 : readBytes (writeU64 (writeU64 (writeU64 s.buf 0 w) 8 r) 16 c)
        8 8 = readBytes (writeU64 (writeU64 s.buf 0 w) 8 r) 8 8 := by
      exact readBytes_writeBytes_left _ 16 (natToBytesLE 8 c) 8 8 (by omega)
        (by rw [h8]; omega)
    show bytesToNatLE (readBytes (writeU64 (writeU64 (writeU64 s.buf 0 w)
      8 r) 16 c) 8 8) = r
    rw [e1]
    rw [show bytesToNatLE (readBytes (writeU64 (writeU64 s.buf 0 w) 8 r) 8 8)
        = readU64 (writeU64 (writeU64 s.buf 0 w) 8 r) 8 from rfl]
    rw [readU64_writeU64_self _ _ _ (by rw [h0]; omega)]
    omega
  · show readU64 (writeU64 (writeU64 (writeU64 s.buf 0 w) 8 r) 16 c) 16 = c
    rw [readU64_writeU64_self _ _ _ (by rw [h8]; omega)]
    omega

theorem setFifoMetadata_frame (s : Shm) (w r c qoff qlen : Nat)
    (h24 : 24 ≤ qoff) (hlen : 24 ≤ s.buf.length) :
    readBytes (setFifoMetadata s w r c).buf qoff qlen
      = readBytes s.buf qoff qlen := by
  unfold setFifoMetadata
  split
  · have h0 : (writeU64 s.buf 0 w).length = s.buf.length := by
      apply writeBytes_length
      rw [natToBytesLE_length]
      omega
    have h8 : (writeU64 (writeU64 s.buf 0 w) 8 r).length = s.buf.length := by
      rw [writeU64, writeBytes_length]
      · exact h0
      · rw [natToBytesLE_length, h0]
        omega
    show readBytes (writeU64 (writeU64 (writeU64 s.buf 0 w) 8 r) 16 c)
      qoff qlen = _
    rw [writeU64, readBytes_writeBytes_right _ _ _ _ _
      (by rw [natToBytesLE_length]; omega) (by rw [h8]; omega)]
    rw [writeU64, readBytes_writeBytes_right _ _ _ _ _
      (by rw [natToBytesLE_length]; omega) (by rw [h0]; omega)]
    rw [writeU64, readBytes_writeBytes_right _ _ _ _ _
      (by rw [natToBytesLE_length]; omega) (by omega)]
  · rfl

/-! ## Region creation readback -/

theorem initStatusLoop_length (buf : List Nat) (so n : Nat)
    (h : so + n ≤ buf.length) :
    (initStatusLoop buf so n).length = buf.length := by
  induction n generalizing so buf with
  | zero => rfl
  | succ m ih =>
    simp only [initStatusLoop]
    have hw : (writeByte buf so MASK_UNWRITTEN).length = buf.length := by
      apply writeBytes_length
      simp only [List.length_singleton]
      omega
    rw [ih _ _ (by rw [hw]; omega), hw]

theorem initStatusLoop_readByte (buf : List Nat) (so n q : Nat)
    (h : so + n ≤ buf.length) :
    readByte (initStatusLoop buf so n) q
      = if so ≤ q ∧ q < so + n then MASK_UNWRITTEN else readByte buf q := by
  induction n generalizing so buf with
  | zero =>
    simp only [initStatusLoop]
    rw [if_neg (by omega)]
  | succ m ih =>
    simp only [initStatusLoop]
    have hw : (writeByte buf so MASK_UNWRITTEN).length = buf.length := by
      apply writeBytes_length
      simp only [List.length_singleton]
      omega
    rw [ih _ _ (by rw [hw]; omega)]
    by_cases h1 : so + 1 ≤ q ∧ q < so + 1 + m
    · rw [if_pos h1, if_pos (by omega)]
    · rw [if_neg h1]
      by_cases h2 : q = so
      · subst h2
        rw [if_pos (by omega)]
        exact readByte_writeByte_self buf q _ (by omega)
      · rw [if_neg (by omega)]
        rcases Nat.lt_or_ge q so with h3 | h3
        · exact readByte_writeBytes_left buf _ _ _ (by omega) (by omega)
        · apply readByte_writeBytes_right
          · simp only [List.length_singleton]
            omega
          · omega

theorem initStatusLoop_frame_bytes (buf : List Nat) (so n qoff qlen : Nat)
    (h : so + n ≤ buf.length)
    (hq : qoff + qlen ≤ so ∨ so + n ≤ qoff) :
    readBytes (initStatusLoop buf so n) qoff qlen
      = readBytes buf qoff qlen := by
  apply readBytes_ext _ _ _ _ (initStatusLoop_length buf so n h)
  intro q hq1 hq2
  rw [initStatusLoop_readByte buf so n q h, if_neg (by omega)]

theorem initializeSlot_spec (t : Shm) (hwf : LayoutWF t.layout)
    (hlen : t.dataOffset + t.slots * t.layout.totalSize ≤ t.buf.length)
    (j : Nat) (hj : j < t.slots) :
    (initializeSlot t j).layout = t.layout ∧
    (initializeSlot t j).slots = t.slots ∧
    (initializeSlot t j).writeBuffer = t.writeBuffer ∧
    (initializeSlot t j).writeBufferDirty = t.writeBufferDirty ∧
    (initializeSlot t j).buf.length = t.buf.length ∧
    readU64 (initializeSlot t j).buf (t.slotOffset j) = 0 ∧
    readU64 (initializeSlot t j).buf
      (t.slotOffset j + t.layout.totalSize - 8) = 0 ∧
    (∀ k, k < t.layout.fields.length →
      readByte (initializeSlot t j).buf (t.slotOffset j + 8 + k)
        = MASK_UNWRITTEN) ∧
    (∀ qoff qlen, (qoff + qlen ≤ t.slotOffset j ∨
        t.slotOffset j + t.layout.totalSize ≤ qoff) →
      readBytes (initializeSlot t j).buf qoff qlen
        = readBytes t.buf qoff qlen) := by
  have hhdr := hwf.header_ub
  have hregion : t.slotOffset j + t.layout.totalSize ≤ t.buf.length := by
    unfold Shm.slotOffset
    have : (j + 1) * t.layout.totalSize ≤ t.slots * t.layout.totalSize :=
      Nat.mul_le_mul_right _ (by omega)
    have h2 : j * t.layout.totalSize + t.layout.totalSize
        = (j + 1) * t.layout.totalSize := by ring
    omega
  have hB1 : (writeU64 t.buf (t.slotOffset j) 0).length = t.buf.length := by
    apply writeBytes_length
    rw [natToBytesLE_length]
    omega
  have hB2 : (initStatusLoop (writeU64 t.buf (t.slotOffset j) 0)
      (t.slotOffset j + 8) t.layout.fields.length).length = t.buf.length := by
    rw [initStatusLoop_length _ _ _ (by rw [hB1]; omega), hB1]
  refine ⟨rfl, rfl, rfl, rfl, ?_, ?_, ?_, ?_, ?_⟩
  · show (writeU64 _ _ 0).length = t.buf.length
    rw [writeU64, writeBytes_length]
    · exact hB2
    · rw [natToBytesLE_length, hB2]
      omega
  · show readU64 (writeU64 _ (t.slotOffset j + t.layout.totalSize - 8) 0)
      (t.slotOffset j) = 0
    rw [readU64, writeU64,
      readBytes_writeBytes_left _ _ _ _ 8 (by omega) (by rw [hB2]; omega)]
    rw [initStatusLoop_frame_bytes _ _ _ _ _ (by rw [hB1]; omega)
      (by left; omega)]
    rw [show bytesToNatLE (readBytes (writeU64 t.buf (t.slotOffset j) 0)
        (t.slotOffset j) 8) = readU64 (writeU64 t.buf (t.slotOffset j) 0)
        (t.slotOffset j) from rfl]
    rw [readU64_writeU64_self _ _ _ (by omega)]
    simp
  · show readU64 (writeU64 _ (t.slotOffset j + t.layout.totalSize - 8) 0)
      (t.slotOffset j + t.layout.totalSize - 8) = 0
    rw [readU64_writeU64_self _ _ _ (by rw [hB2]; omega)]
    simp
  · intro k hk
    show readByte (writeU64 _ (t.slotOffset j + t.layout.totalSize - 8) 0)
      (t.slotOffset j + 8 + k) = MASK_UNWRITTEN
    rw [writeU64, readByte_writeBytes_left _ _ _ _ (by omega)
      (by rw [hB2]; omega)]
    rw [initStatusLoop_readByte _ _ _ _ (by rw [hB1]; omega),
      if_pos (by omega)]
  · intro qoff qlen hq
    show readBytes (writeU64 _ (t.slotOffset j + t.layout.totalSize - 8) 0)
      qoff qlen = _
    have hstep1 : readBytes (writeU64 (initStatusLoop
        (writeU64 t.buf (t.slotOffset j) 0) (t.slotOffset j + 8)
        t.layout.fields.length) (t.slotOffset j + t.layout.totalSize - 8) 0)
        qoff qlen
        = readBytes (initStatusLoop (writeU64 t.buf (t.slotOffset j) 0)
          (t.slotOffset j + 8) t.layout.fields.length) qoff qlen := by
      rw [writeU64]
      rcases hq with h | h
      · exact readBytes_writeBytes_left _ _ _ _ _ (by omega)
          (by rw [hB2]; omega)
      · exact readBytes_writeBytes_right _ _ _ _ _
          (by rw [natToBytesLE_length]; omega) (by rw [hB2]; omega)
    rw [hstep1]
    rw [initStatusLoop_frame_bytes _ _ _ _ _ (by rw [hB1]; omega)
      (by rcases hq with h | h
          · left; omega
          · right; omega)]
    rw [writeU64]
    rcases hq with h | h
    · exact readBytes_writeBytes_left _ _ _ _ _ (by omega) (by omega)
    · exact readBytes_writeBytes_right _ _ _ _ _
        (by rw [natToBytesLE_length]; omega) (by omega)

theorem initializeSlots_spec (s : Shm) (hwf : LayoutWF s.layout)
    (hlen : s.dataOffset + s.slots * s.layout.totalSize ≤ s.buf.length) :
    ∀ m, m ≤ s.slots →
    (initializeSlots s m).layout = s.layout ∧
    (initializeSlots s m).slots = s.slots ∧
    (initializeSlots s m).writeBuffer = s.writeBuffer ∧
    (initializeSlots s m).writeBufferDirty = s.writeBufferDirty ∧
    (initializeSlots s m).buf.length = s.buf.length ∧
    ∀ j, j < m →
      readU64 (initializeSlots s m).buf (s.slotOffset j) = 0 ∧
      readU64 (initializeSlots s m).buf
        (s.slotOffset j + s.layout.totalSize - 8) = 0 ∧
      ∀ k, k < s.layout.fields.length →
        readByte (initializeSlots s m).buf (s.slotOffset j + 8 + k)
          = MASK_UNWRITTEN := by
  intro m
  induction m with
  | zero => exact fun _ => ⟨rfl, rfl, rfl, rfl, rfl, fun j hj => absurd hj (by omega)⟩
  | succ m ih =>
    intro hm
    obtain ⟨hl, hsl, hwb, hwbd, hblen, hprev⟩ := ih (by omega)
    have hwf2 : LayoutWF (initializeSlots s m).layout := by rw [hl]; exact hwf
    have hd2 : (initializeSlots s m).dataOffset = s.dataOffset := by
      unfold Shm.dataOffset Shm.isFifo
      rw [hsl]
    have hlen2 : (initializeSlots s m).dataOffset
        + (initializeSlots s m).slots * (initializeSlots s m).layout.totalSize
        ≤ (initializeSlots s m).buf.length := by
      rw [hd2, hsl, hl, hblen]
      exact hlen
    have hso2 : ∀ j, (initializeSlots s m).slotOffset j = s.slotOffset j := by
      intro j
      unfold Shm.slotOffset
      rw [hd2, hl]
    obtain ⟨il, isl, iwb, iwbd, iblen, iseq, iend, istat, iframe⟩ :=
      initializeSlot_spec (initializeSlots s m) hwf2 hlen2 m (by omega)
    have hso3 : ∀ j k, s.slotOffset j + k
        = (initializeSlots s m).slotOffset j + k := by
      intro j k
      rw [hso2]
    refine ⟨by simp only [initializeSlots, il, hl],
      by simp only [initializeSlots, isl, hsl],
      by simp only [initializeSlots, iwb, hwb],
      by simp only [initializeSlots, iwbd, hwbd],
      by simp only [initializeSlots, iblen, hblen], ?_⟩
    intro j hj
    rcases Nat.lt_or_ge j m with hjm | hjm
    · -- an earlier slot: untouched by this initialization
      have hdis : s.slotOffset j + s.layout.totalSize ≤ s.slotOffset m := by
        unfold Shm.slotOffset
        have : (j + 1) * s.layout.totalSize ≤ m * s.layout.totalSize :=
          Nat.mul_le_mul_right _ (by omega)
        have h2 : j * s.layout.totalSize + s.layout.totalSize
            = (j + 1) * s.layout.totalSize := by ring
        omega
      obtain ⟨p1, p2, p3⟩ := hprev j hjm
      have hfr : ∀ qoff qlen, qoff + qlen ≤ s.slotOffset j
            + s.layout.totalSize →
          readBytes (initializeSlots s (m + 1)).buf qoff qlen
            = readBytes (initializeSlots s m).buf qoff qlen := by
        intro qoff qlen hql
        show readBytes (initializeSlot (initializeSlots s m) m).buf qoff qlen
          = _
        apply iframe
        left
        rw [hso2]
        omega
      refine ⟨?_, ?_, ?_⟩
      · show readU64 (initializeSlot (initializeSlots s m) m).buf
          (s.slotOffset j) = 0
        unfold readU64
        rw [show readBytes (initializeSlot (initializeSlots s m) m).buf
            (s.slotOffset j) 8 = readBytes (initializeSlots s m).buf
            (s.slotOffset j) 8 from hfr _ _ (by
          have := hwf.header_ub
          omega)]
        exact p1
      · show readU64 (initializeSlot (initializeSlots s m) m).buf
          (s.slotOffset j + s.layout.totalSize - 8) = 0
        unfold readU64
        rw [show readBytes (initializeSlot (initializeSlots s m) m).buf
            (s.slotOffset j + s.layout.totalSize - 8) 8
            = readBytes (initializeSlots s m).buf
              (s.slotOffset j + s.layout.totalSize - 8) 8 from hfr _ _ (by
          have := hwf.header_ub
          omega)]
        exact p2
      · intro k hk
        show readByte (initializeSlot (initializeSlots s m) m).buf
          (s.slotOffset j + 8 + k) = MASK_UNWRITTEN
        unfold readByte
        rw [show readBytes (initializeSlot (initializeSlots s m) m).buf
            (s.slotOffset j + 8 + k) 1 = readBytes (initializeSlots s m).buf
            (s.slotOffset j + 8 + k) 1 from hfr _ _ (by
          have := hwf.header_ub
          have h2 := hwf.field_lb
          omega)]
        exact p3 k hk
    · -- j = m: the slot just initialized
      have hjm2 : j = m := by omega
      subst hjm2
      refine ⟨?_, ?_, ?_⟩
      · show readU64 (initializeSlot (initializeSlots s j) j).buf
          (s.slotOffset j) = 0
        rw [show s.slotOffset j = (initializeSlots s j).slotOffset j from
          (hso2 j).symm]
        exact iseq
      · show readU64 (initializeSlot (initializeSlots s j) j).buf
          (s.slotOffset j + s.layout.totalSize - 8) = 0
        rw [show s.slotOffset j + s.layout.totalSize - 8
            = (initializeSlots s j).slotOffset j
              + (initializeSlots s j).layout.totalSize - 8 from by
          rw [hso2, hl]]
        exact iend
      · intro k hk
        show readByte (initializeSlot (initializeSlots s j) j).buf
          (s.slotOffset j + 8 + k) = MASK_UNWRITTEN
        rw [show s.slotOffset j + 8 + k
            = (initializeSlots s j).slotOffset j + 8 + k from by rw [hso2]]
        apply istat
        rw [hl]
        exact hk

/-- `__init__` with `create=True` delivers a well-formed region whose slots
all read back as sequence 0 / every status byte `UNWRITTEN`. -/
theorem createShm_spec (L : Layout) (slots : Nat) (hwf : LayoutWF L)
    (hslots : 1 ≤ slots) :
    ∃ s0, createShm L slots = some s0 ∧ ShmWF s0 ∧
      s0.slots = slots ∧ s0.layout = L ∧
      s0.writeBuffer = [] ∧ s0.writeBufferDirty = false ∧
      ∀ j, j < slots →
        readU64 s0.buf (s0.slotOffset j) = 0 ∧
        readU64 s0.buf (s0.slotOffset j + L.totalSize - 8) = 0 ∧
        ∀ k, k < L.fields.length →
          readByte s0.buf (s0.slotOffset j + 8 + k) = MASK_UNWRITTEN := by
  have hT : 16 ≤ L.totalSize := by
    have := hwf.header_ub
    omega
  simp only [createShm, if_neg (by omega : ¬slots < 1)]
  set base : Shm :=
    { layout := L, slots := slots
      buf := List.replicate ((if slots > 1 then 24 else 0)
        + L.totalSize * slots) 0
      writeBuffer := [], writeBufferDirty := false } with hbase
  have hbaselen : base.buf.length
      = (if slots > 1 then 24 else 0) + L.totalSize * slots := by
    simp [hbase]
  have hbdo : base.dataOffset = if slots > 1 then 24 else 0 := by
    unfold Shm.dataOffset Shm.isFifo
    simp [hbase]
  set s1 := setFifoMetadata base 0 0 0 with hs1
  have hs1slots : s1.slots = slots := by
    rw [hs1]
    unfold setFifoMetadata
    split <;> simp [hbase]
  have hs1layout : s1.layout = L := by
    rw [hs1]
    unfold setFifoMetadata
    split <;> simp [hbase]
  have hs1wb : s1.writeBuffer = [] := by
    rw [hs1]
    unfold setFifoMetadata
    split <;> simp [hbase]
  have hs1wbd : s1.writeBufferDirty = false := by
    rw [hs1]
    unfold setFifoMetadata
    split <;> simp [hbase]
  have hs1len : s1.buf.length = base.buf.length := by
    rw [hs1]
    unfold setFifoMetadata
    split
    · show (writeU64 (writeU64 (writeU64 base.buf 0 0) 8 0) 16 0).length = _
      rename_i hff
      have h24 : 24 ≤ base.buf.length := by
        rw [hbaselen]
        have : slots > 1 := by
          by_contra hno
          unfold Shm.isFifo at hff
          simp [hbase] at hff
          omega
        rw [if_pos this]
        omega
      have h0 : (writeU64 base.buf 0 0).length = base.buf.length := by
        apply writeBytes_length
        rw [natToBytesLE_length]
        omega
      have h8 : (writeU64 (writeU64 base.buf 0 0) 8 0).length
          = base.buf.length := by
        rw [writeU64, writeBytes_length]
        · exact h0
        · rw [natToBytesLE_length, h0]
          omega
      rw [writeU64, writeBytes_length]
      · exact h8
      · rw [natToBytesLE_length, h8]
        omega
    · rfl
  have hs1do : s1.dataOffset = base.dataOffset := by
    unfold Shm.dataOffset Shm.isFifo
    rw [hs1slots]
  have hwf1 : LayoutWF s1.layout := by
    rw [hs1layout]
    exact hwf
  have hlen1 : s1.dataOffset + s1.slots * s1.layout.totalSize
      ≤ s1.buf.length := by
    rw [hs1do, hbdo, hs1slots, hs1layout, hs1len, hbaselen]
    have : slots * L.totalSize = L.totalSize * slots := by ring
    omega
  obtain ⟨hl, hsl, hwb, hwbd, hblen, hslot⟩ :=
    initializeSlots_spec s1 hwf1 hlen1 slots (by rw [hs1slots])
  refine ⟨initializeSlots s1 slots, rfl, ?_, by rw [hsl, hs1slots],
    by rw [hl, hs1layout], by rw [hwb, hs1wb], by rw [hwbd, hs1wbd], ?_⟩
  · refine ⟨by rw [hl, hs1layout]; exact hwf, by rw [hsl, hs1slots]; omega, ?_⟩
    have : (initializeSlots s1 slots).dataOffset = s1.dataOffset := by
      unfold Shm.dataOffset Shm.isFifo
      rw [hsl]
    rw [hblen, hs1len, hbaselen, this, hs1do, hbdo, hl, hs1layout, hsl,
      hs1slots]
    ring
  · intro j hj
    have hso : (initializeSlots s1 slots).slotOffset j = s1.slotOffset j := by
      unfold Shm.slotOffset Shm.dataOffset Shm.isFifo
      rw [hsl, hl]
    obtain ⟨p1, p2, p3⟩ := hslot j hj
    rw [hs1layout] at p2
    refine ⟨by rw [hso]; exact p1, by rw [hso]; exact p2, ?_⟩
    intro k hk
    rw [hso]
    exact p3 k (by rw [hs1layout]; exact hk)

theorem dictLookup_mem (m : List (String × Val)) (k : String) (v : Val)
    (h : dictLookup m k = some v) : (k, v) ∈ m := by
  induction m with
  | nil => exact Option.noConfusion h
  | cons p rest ih =>
    obtain ⟨k2, v2⟩ := p
    simp only [dictLookup] at h
    split at h
    · rename_i hk
      simp only [Option.some.injEq] at h
      subst hk h
      exact List.mem_cons_self _ _
    · exact List.mem_cons_of_mem _ (ih h)

/-- After a completed slot write, a consume of that slot is not torn and its
record carries, at each field's position, that field's decoded value and
status byte. -/
theorem consume_entry_after_write (s : Shm) (hs : ShmWF s) (i : Nat)
    (hi : i < s.slots) (data : List (String × Val)) (s2 : Shm)
    (heq : writeToSlot s i data = some s2)
    (fs1 : List FieldInfo) (f : FieldInfo) (fs2 : List FieldInfo)
    (hfields : s.layout.fields = fs1 ++ f :: fs2) :
    ∃ rec, (readFromSlot s2 i false).1 = some rec ∧
      rec[fs1.length]? = some
        { name := f.name
          value := decodeField s2.buf (s.slotOffset i + f.offset) f.kind
          status := readByte s2.buf (s.slotOffset i + 8 + fs1.length) } := by
  obtain ⟨hl2, hsl2, hwb2, hwbd2, hblen2, hseqb, hseqe⟩ :=
    writeToSlot_spec s i data s2 hs hi heq
  have hso2 : s2.slotOffset i = s.slotOffset i := by
    unfold Shm.slotOffset Shm.dataOffset Shm.isFifo
    rw [hsl2, hl2]
  have hseq : readU64 s2.buf (s2.slotOffset i)
      = readU64 s2.buf (s2.slotOffset i + s2.layout.totalSize - 8) := by
    rw [hso2, hl2, hseqb, hseqe]
  have hnt := readFromSlot_not_torn s2 i false hseq
  have hfields2 : s2.layout.fields = fs1 ++ f :: fs2 := by rw [hl2, hfields]
  refine ⟨_, hnt, ?_⟩
  rw [hfields2]
  rw [readFieldsLoop_entry s2.buf (s2.slotOffset i) (s2.slotOffset i + 8)
    fs1 f fs2]
  rw [hso2]

/-! ## Concrete regions used by the witnesses -/

/-- Schema `(v : F64)` — the layout of scenario S4. -/
def exLayoutF64 : Layout := compileLayout [("v", FieldKind.scalar .f64)]

/-- Fallback handle for `Option.getD` (never actually used). -/
def exDummy : Shm :=
  { layout := exLayoutF64, slots := 1, buf := [], writeBuffer := []
    writeBufferDirty := false }

/-- A fresh 3-slot ring over `(v : F64)`. -/
def exRing0 : Shm := (createShm exLayoutF64 3).getD exDummy

/-- A fresh single-slot region over `(v : F64)`. -/
def exSingle0 : Shm := (createShm exLayoutF64 1).getD exDummy

/-- Schema `(v : F64, n : I32)`. -/
def exLayout2 : Layout :=
  compileLayout [("v", FieldKind.scalar .f64), ("n", FieldKind.scalar .i32)]

/-- A single-slot region over `(v, n)` (fresh zeroed buffer). -/
def exS2 : Shm := (createShm exLayout2 1).getD exDummy

/-- `exS2` after publishing only `v`. -/
def exS2v : Shm := (writeToSlot exS2 0 [("v", Val.f64 7)]).getD exDummy

/-! ## Claims -/

/-- Claim C1: round-trip law.  For every scalar, string, or array value `x`
that fits within its field's declared bounds, publishing `x` into a slot
(the `_write_to_slot` protocol, used by single-slot `write` and by ring
`finalize`) and then consuming that slot yields a field whose value
equals `x`. -/
theorem claim_C1_round_trip (s : Shm) (hs : ShmWF s) (i : Nat)
    (hi : i < s.slots) (data : List (String × Val)) (v : Val)
    (fs1 : List FieldInfo) (f : FieldInfo) (fs2 : List FieldInfo)
    (hfields : s.layout.fields = fs1 ++ f :: fs2)
    (hlook : dictLookup data f.name = some v)
    (hfits : ValFits f.kind v)
    (hdata : ∀ p ∈ data, ∀ g ∈ s.layout.fields, g.name = p.1 →
      (encodeField g.kind p.2).isSome) :
    ∃ s2 rec fr, writeToSlot s i data = some s2 ∧
      (readFromSlot s2 i false).1 = some rec ∧
      rec[fs1.length]? = some fr ∧ fr.value = v := by
  have hdata2 : ∀ g ∈ s.layout.fields, ∀ w, dictLookup data g.name = some w →
      (encodeField g.kind w).isSome := fun g hg w hw =>
    hdata (g.name, w) (dictLookup_mem data g.name w hw) g hg rfl
  obtain ⟨s2, heq⟩ := Option.isSome_iff_exists.mp
    (writeToSlot_isSome s i data hs hi hdata2)
  have hfmem : f ∈ s.layout.fields := by
    rw [hfields]
    exact List.mem_append_right fs1 (List.mem_cons_self f fs2)
  obtain ⟨⟨bytes, t⟩, hbt⟩ := Option.isSome_iff_exists.mp
    (hdata2 f hfmem v hlook)
  have hcont := writeToSlot_content s i data s2 hs hi heq fs1 f fs2 hfields
    v bytes t hlook hbt
  have hdec := decodeField_encodeField f.kind v bytes t s2.buf
    (s.slotOffset i + f.offset) hfits hbt hcont
  obtain ⟨rec, hrec, hentry⟩ := consume_entry_after_write s hs i hi data s2
    heq fs1 f fs2 hfields
  exact ⟨s2, rec, _, heq, hrec, hentry, hdec.1⟩

theorem claim_C1_witness :
    ∃ s2 rec fr,
      writeToSlot exSingle0 0 [("v", Val.f64 0x4045000000000000)] = some s2 ∧
      (readFromSlot s2 0 false).1 = some rec ∧
      rec[(0 : Nat)]? = some fr ∧ fr.value = Val.f64 0x4045000000000000 :=
  claim_C1_round_trip exSingle0
    ⟨⟨by decide, by decide, by decide, by decide⟩, by decide, by decide⟩
    0 (by decide) [("v", Val.f64 0x4045000000000000)]
    (Val.f64 0x4045000000000000) [] ⟨"v", FieldKind.scalar .f64, 16⟩ []
    (by decide) (by decide) (by decide) (by decide)

/-- The five f64 bit patterns 0.0, 1.0, 2.0, 3.0, 4.0 of scenario S4. -/
def c2Bits : List Nat :=
  [0, 0x3FF0000000000000, 0x4000000000000000, 0x4008000000000000,
   0x4010000000000000]

/-- The ring of scenario S4 after the five produce cycles
(`write` then `finalize`). -/
def c2State : Option Shm :=
  c2Bits.foldl
    (fun os b => (os.bind fun s => publish s [("v", Val.f64 b)]).bind finalize)
    (createShm exLayoutF64 3)

set_option maxRecDepth 10000 in
/-- Claim C2: scenario S4 — producing 0.0 .. 4.0 into a 3-slot ring leaves
write_counter 5, read_counter 2, current_size 3, and the consumer then
receives exactly 2.0, 3.0, 4.0 followed by the no-data result. -/
theorem claim_C2_ring_overwrite :
    ∃ s5, c2State = some s5 ∧
      getFifoMetadata s5 = (5, 2, 3) ∧
      (readFifo s5 false).1
        = some [⟨"v", Val.f64 0x4000000000000000, 4⟩] ∧
      (readFifo (readFifo s5 false).2 false).1
        = some [⟨"v", Val.f64 0x4008000000000000, 4⟩] ∧
      (readFifo (readFifo (readFifo s5 false).2 false).2 false).1
        = some [⟨"v", Val.f64 0x4010000000000000, 4⟩] ∧
      (readFifo (readFifo (readFifo (readFifo s5 false).2 false).2
        false).2 false).1 = none := by
  refine ⟨c2State.getD exDummy, ?_, ?_, ?_, ?_, ?_, ?_⟩ <;> decide

/-- Claim C3 counterexample: decoding a string payload containing the
invalid byte 0xFF silently drops it (CPython `errors='ignore'`); it is
not replaced by U+FFFD as the spec states. -/
theorem claim_C3_counterexample :
    decodeField (natToBytesLE 4 2 ++ [0xFF, 0x61]) 0 (FieldKind.string 8)
      = Val.str [0x61] ∧
    Val.str [0x61] ≠ Val.str [0xFFFD, 0x61] := by
  constructor
  · decide
  · decide

/-- Claim C3 amended: on decode, byte subsequences that are not valid
UTF-8 are dropped (decoded with `errors='ignore'`), so a payload of two
valid encoded runs separated by an invalid byte decodes to the
concatenation of the two runs with nothing substituted in between. -/
theorem claim_C3_decode_ignores_invalid (cps1 cps2 post : List Nat)
    (mc : Nat)
    (h1 : ∀ c ∈ cps1, IsScalarValue c) (h2 : ∀ c ∈ cps2, IsScalarValue c)
    (hlen : (utf8Encode cps1).length + 1 + (utf8Encode cps2).length
      < 2 ^ 32) :
    decodeField
      (natToBytesLE 4
          ((utf8Encode cps1).length + 1 + (utf8Encode cps2).length)
        ++ ((utf8Encode cps1 ++ 0xFF :: utf8Encode cps2) ++ post))
      0 (FieldKind.string mc)
      = Val.str (cps1 ++ cps2) := by
  set P : List Nat := utf8Encode cps1 ++ 0xFF :: utf8Encode cps2 with hP
  have hPlen : P.length
      = (utf8Encode cps1).length + 1 + (utf8Encode cps2).length := by
    rw [hP]
    simp [List.length_append, List.length_cons]
    omega
  set L : Nat :=
    (utf8Encode cps1).length + 1 + (utf8Encode cps2).length with hL
  have hr32 : readU32 (natToBytesLE 4 L ++ (P ++ post)) 0 = L := by
    unfold readU32
    have : readBytes (natToBytesLE 4 L ++ (P ++ post)) 0 4
        = natToBytesLE 4 L := by
      unfold readBytes
      rw [List.drop_zero]
      rw [List.take_left' (natToBytesLE_length 4 L)]
    rw [this, bytesToNatLE_natToBytesLE]
    rw [Nat.mod_eq_of_lt]
    exact hlen
  have hrb : readBytes (natToBytesLE 4 L ++ (P ++ post)) (0 + 4) L = P := by
    unfold readBytes
    have h4 : 0 + 4 = (natToBytesLE 4 L).length := by
      rw [natToBytesLE_length]
    rw [h4, List.drop_left]
    rw [List.take_left' hPlen]
  unfold decodeField
  rw [hr32]
  simp only []
  rw [hrb, hP]
  rw [utf8DecodeIgnore_append cps1 h1 (0xFF :: utf8Encode cps2)]
  rw [utf8DecodeIgnore_ff (utf8Encode cps2)]
  rw [utf8DecodeIgnore_utf8Encode cps2 h2]

theorem claim_C3_witness :
    decodeField
      (natToBytesLE 4
          ((utf8Encode [72]).length + 1 + (utf8Encode [97]).length)
        ++ ((utf8Encode [72] ++ 0xFF :: utf8Encode [97]) ++ [5]))
      0 (FieldKind.string 3)
      = Val.str ([72] ++ [97]) :=
  claim_C3_decode_ignores_invalid [72] [97] [5] 3
    (by decide) (by decide) (by decide)

/-- A 3-slot ring holding one produced entry (1.0), for the C4
counterexample. -/
def c4State : Shm :=
  ((publish exRing0 [("v", Val.f64 0x3FF0000000000000)]).bind
    finalize).getD exDummy

set_option maxRecDepth 10000 in
/-- Claim C4 counterexample: a ring `read` is not state-free — consuming
an entry advances the read counter and shrinks current_size, so the state
changes and a repeated read returns a different result. -/
theorem claim_C4_counterexample :
    (readFifo c4State false).2 ≠ c4State ∧
    getFifoMetadata (readFifo c4State false).2
      ≠ getFifoMetadata c4State ∧
    (readFifo (readFifo c4State false).2 false).1
      ≠ (readFifo c4State false).1 := by
  refine ⟨?_, ?_, ?_⟩ <;> decide

/-- Claim C4 amended: only the slot-level read (`_read_from_slot` with
`reset_modified=False`, the path taken by single-slot `read`) leaves the
region unchanged; iterating it any number of times is a no-op and a
repeated read returns the identical result. Ring reads, by contrast,
mutate the FIFO counters (see the counterexample). -/
theorem claim_C4_slot_read_stateless (s : Shm) (i n : Nat) :
    (readFromSlot s i false).2 = s ∧
    (fun st => (readFromSlot st i false).2)^[n] s = s ∧
    readFromSlot ((fun st => (readFromSlot st i false).2)^[n] s) i false
      = readFromSlot s i false := by
  have h : (fun st => (readFromSlot st i false).2) s = s :=
    readFromSlot_noreset_state s i
  have hiter :=
    @Function.iterate_fixed _ (fun st => (readFromSlot st i false).2) s h n
  exact ⟨readFromSlot_noreset_state s i, hiter, by rw [hiter]⟩

/-- Claim C5 counterexample: the annotation grammar is not enforced as the
spec describes — `float32[0,640]` (a zero dimension) is accepted by
`_parse_type`/`compile`, and `float16[4]` is accepted with the unknown
dtype token silently defaulting to float64; neither raises. -/
theorem claim_C5_counterexample :
    (compileFields [("img", PyType.ann "float32[0,640]")]).isSome = true ∧
    parseType (PyType.ann "float16[4]")
      = some (FieldKind.array .f64 [4]) ∧
    parseType (PyType.ann "str[0]") = none ∧
    parseType (PyType.ann "banana") = none := by
  refine ⟨?_, ?_, ?_, ?_⟩ <;> decide

/-- Claim C5 amended: `compile` succeeds on a declaration list exactly when
every annotation parses (`_parse_type` returns a handler); rejected
annotations include `str[0]` (falsy max_chars) and unrecognized
non-array strings such as `banana`, while `str[N]` with positive N,
known scalars, and well-formed array annotations parse. -/
theorem claim_C5_compile_iff_parse (decls : List (String × PyType)) :
    ((compileFields decls).isSome
      ↔ ∀ d ∈ decls, (parseType d.2).isSome) ∧
    parseType (PyType.ann "str[0]") = none ∧
    parseType (PyType.ann "banana") = none ∧
    parseType (PyType.ann "str[16]") = some (FieldKind.string 16) ∧
    parseType PyType.pyFloat = some (FieldKind.scalar .f64) ∧
    parseType (PyType.ann "uint8[2,3]")
      = some (FieldKind.array .u8 [2, 3]) := by
  exact ⟨compileFields_isSome decls, by decide, by decide, by decide,
    by decide, by decide⟩

/-- `_get_fifo_metadata` depends only on the slot count and the buffer. -/
theorem getFifoMetadata_congr (a b : Shm) (hs : a.slots = b.slots)
    (hb : a.buf = b.buf) : getFifoMetadata a = getFifoMetadata b := by
  unfold getFifoMetadata Shm.isFifo
  rw [hs, hb]

set_option maxRecDepth 10000 in
/-- Claim C6 counterexample: `finalize` on a clean staging map is a no-op —
it completes without writing any slot and without incrementing
write_index (line 514's early return), so not every call commits. -/
theorem claim_C6_counterexample :
    finalize exRing0 = some exRing0 ∧
    getFifoMetadata exRing0 = (0, 0, 0) ∧
    exRing0.writeBufferDirty = false := by
  refine ⟨?_, ?_, ?_⟩ <;> decide

/-- Claim C6 amended: when the staging map is dirty, `finalize` commits it
into slot (write_index mod slot_count) via the slot write protocol,
increments write_index, grows count while count < slot_count and
otherwise advances read_index, stores the new counters, and clears the
staging map; with a clean staging map it returns unchanged instead. -/
theorem claim_C6_finalize_commit (s : Shm) (hs : ShmWF s) (w r c : Nat)
    (s2 : Shm) (hfifo : s.isFifo = true)
    (hdirty : s.writeBufferDirty = true)
    (hmeta : getFifoMetadata s = (w, r, c))
    (hws : writeToSlot s (w % s.slots) s.writeBuffer = some s2)
    (hw : w + 1 < 2 ^ 64) (hr : r + 1 < 2 ^ 64) (hc : c + 1 < 2 ^ 64) :
    ∃ s3, finalize s = some s3 ∧
      s3.writeBuffer = [] ∧ s3.writeBufferDirty = false ∧
      getFifoMetadata s3
        = (w + 1, if c < s.slots then r else r + 1,
            if c < s.slots then c + 1 else c) ∧
      ∀ qoff qlen, 24 ≤ qoff →
        readBytes s3.buf qoff qlen = readBytes s2.buf qoff qlen := by
  obtain ⟨hwf, hslots, hblen⟩ := hs
  have hi : w % s.slots < s.slots := Nat.mod_lt _ (by omega)
  obtain ⟨hl2, hsl2, _, _, hblen2, _, _⟩ :=
    writeToSlot_spec s (w % s.slots) s.writeBuffer s2 ⟨hwf, hslots, hblen⟩
      hi hws
  have hfifo2 : s2.isFifo = true := by
    unfold Shm.isFifo at *
    rw [hsl2]
    exact hfifo
  have hdo : s.dataOffset = 24 := by
    unfold Shm.dataOffset
    rw [hfifo]
    rfl
  have h24 : 24 ≤ s2.buf.length := by
    rw [hblen2, hblen, hdo]
    omega
  unfold finalize
  rw [if_neg (by simp [hfifo])]
  rw [if_neg (by simp [hdirty])]
  rw [hmeta]
  simp only []
  rw [hws]
  simp only []
  by_cases hcs : c < s.slots
  · rw [if_pos hcs]
    simp only []
    refine ⟨_, rfl, rfl, rfl, ?_, ?_⟩
    · simp only [if_pos hcs]
      exact (getFifoMetadata_congr _ (setFifoMetadata s2 (w + 1) r (c + 1))
        rfl rfl).trans
        (getFifoMetadata_set s2 (w + 1) r (c + 1) hfifo2 h24 hw
          (by omega) hc)
    · intro qoff qlen hq
      exact setFifoMetadata_frame s2 (w + 1) r (c + 1) qoff qlen hq h24
  · rw [if_neg hcs]
    simp only []
    refine ⟨_, rfl, rfl, rfl, ?_, ?_⟩
    · simp only [if_neg hcs]
      exact (getFifoMetadata_congr _ (setFifoMetadata s2 (w + 1) (r + 1) c)
        rfl rfl).trans
        (getFifoMetadata_set s2 (w + 1) (r + 1) c hfifo2 h24 hw hr
          (by omega))
    · intro qoff qlen hq
      exact setFifoMetadata_frame s2 (w + 1) (r + 1) c qoff qlen hq h24

/-- `exRing0` with one staged field (5.0), dirty. -/
def c6S : Shm :=
  (publish exRing0 [("v", Val.f64 0x4014000000000000)]).getD exDummy

/-- The expected committed slot state for the C6 witness. -/
def c6S2 : Shm := (writeToSlot c6S 0 c6S.writeBuffer).getD exDummy

set_option maxRecDepth 10000 in
theorem claim_C6_witness :
    ∃ s3, finalize c6S = some s3 ∧
      s3.writeBuffer = [] ∧ s3.writeBufferDirty = false ∧
      getFifoMetadata s3
        = (0 + 1, if 0 < c6S.slots then 0 else 0 + 1,
            if 0 < c6S.slots then 0 + 1 else 0) ∧
      ∀ qoff qlen, 24 ≤ qoff →
        readBytes s3.buf qoff qlen = readBytes c6S2.buf qoff qlen :=
  claim_C6_finalize_commit c6S
    ⟨⟨by decide, by decide, by decide, by decide⟩, by decide, by decide⟩
    0 0 0 c6S2 (by decide) (by decide) (by decide) (by decide)
    (by decide) (by decide) (by decide)

/-- Claim C7: after a publish of field set F into a slot completes, the
MODIFIED bit is set in the status byte of exactly the fields of F (those
the staged data maps) and cleared in the status byte of every other
field of the slot. -/
theorem claim_C7_modified_exactly (s : Shm) (hs : ShmWF s) (i : Nat)
    (hi : i < s.slots) (data : List (String × Val)) (s2 : Shm)
    (heq : writeToSlot s i data = some s2)
    (fs1 : List FieldInfo) (f : FieldInfo) (fs2 : List FieldInfo)
    (hfields : s.layout.fields = fs1 ++ f :: fs2) :
    stModified (readByte s2.buf (s.slotOffset i + 8 + fs1.length))
      = (dictLookup data f.name).isSome := by
  rw [writeToSlot_status s i data s2 hs hi heq fs1 f fs2 hfields]
  unfold expectedStatus
  cases hd : dictLookup data f.name with
  | none => exact stModified_clearModified _
  | some v =>
    have hfmem : f ∈ s.layout.fields := by
      rw [hfields]
      exact List.mem_append_right fs1 (List.mem_cons_self f fs2)
    obtain ⟨⟨bytes, t⟩, hbt⟩ := Option.isSome_iff_exists.mp
      (writeToSlot_encOk s i data s2 heq f hfmem v hd)
    simp only [hbt]
    exact stModified_writtenStatus _ t

set_option maxRecDepth 10000 in
theorem claim_C7_witness :
    stModified (readByte exS2v.buf (exS2.slotOffset 0 + 8 + 1))
      = (dictLookup [("v", Val.f64 7)] "n").isSome ∧
    stModified (readByte exS2v.buf (exS2.slotOffset 0 + 8 + 0))
      = (dictLookup [("v", Val.f64 7)] "v").isSome :=
  ⟨claim_C7_modified_exactly exS2
      ⟨⟨by decide, by decide, by decide, by decide⟩, by decide, by decide⟩
      0 (by decide) [("v", Val.f64 7)] exS2v (by decide)
      [⟨"v", FieldKind.scalar .f64, 16⟩] ⟨"n", FieldKind.scalar .i32, 24⟩
      [] (by decide),
    claim_C7_modified_exactly exS2
      ⟨⟨by decide, by decide, by decide, by decide⟩, by decide, by decide⟩
      0 (by decide) [("v", Val.f64 7)] exS2v (by decide)
      [] ⟨"v", FieldKind.scalar .f64, 16⟩
      [⟨"n", FieldKind.scalar .i32, 24⟩] (by decide)⟩

/-- Claim C8: string truncation boundary — publishing a string of exactly
max_chars code points leaves truncated clear and the consumed value is
the source; publishing max_chars + 1 code points sets truncated and the
consumed value is the first max_chars code points. -/
theorem claim_C8_string_boundary (s : Shm) (hs : ShmWF s) (i : Nat)
    (hi : i < s.slots) (data : List (String × Val)) (s2 : Shm)
    (heq : writeToSlot s i data = some s2)
    (fs1 : List FieldInfo) (f : FieldInfo) (fs2 : List FieldInfo)
    (hfields : s.layout.fields = fs1 ++ f :: fs2)
    (mc : Nat) (cps : List Nat)
    (hkind : f.kind = FieldKind.string mc)
    (hlook : dictLookup data f.name = some (Val.str cps))
    (hvalid : ∀ c ∈ cps, IsScalarValue c)
    (hmc : 4 * mc < 2 ^ 32) :
    ∃ rec fr, (readFromSlot s2 i false).1 = some rec ∧
      rec[fs1.length]? = some fr ∧
      (cps.length = mc →
        fr.value = Val.str cps ∧ stTruncated fr.status = false) ∧
      (cps.length = mc + 1 →
        fr.value = Val.str (cps.take mc) ∧
          stTruncated fr.status = true) := by
  have hvalid2 : ∀ c ∈ cps.take mc, IsScalarValue c := fun c hc =>
    hvalid c (List.take_subset mc cps hc)
  have hbt : encodeField f.kind (Val.str cps)
      = some (natToBytesLE 4 (utf8Encode (cps.take mc)).length
          ++ utf8Encode (cps.take mc), decide (cps.length > mc)) := by
    rw [hkind]
    exact encodeField_string_eq mc cps hvalid2
  have hcont := writeToSlot_content s i data s2 hs hi heq fs1 f fs2 hfields
    (Val.str cps) _ _ hlook hbt
  have hblen : (natToBytesLE 4 (utf8Encode (cps.take mc)).length
      ++ utf8Encode (cps.take mc)).length
      = 4 + (utf8Encode (cps.take mc)).length := by
    rw [List.length_append, natToBytesLE_length]
  rw [hblen] at hcont
  have hplen : (utf8Encode (cps.take mc)).length < 2 ^ 32 := by
    have h1 := utf8Encode_length_le (cps.take mc)
    have h2 : (cps.take mc).length ≤ mc := by
      rw [List.length_take]
      omega
    omega
  have hdec := decodeField_string s2.buf (s.slotOffset i + f.offset) mc cps
    hvalid2 hplen hcont
  have hstat : readByte s2.buf (s.slotOffset i + 8 + fs1.length)
      = writtenStatus (readByte s.buf (s.slotOffset i + 8 + fs1.length))
          (decide (cps.length > mc)) := by
    rw [writeToSlot_status s i data s2 hs hi heq fs1 f fs2 hfields]
    unfold expectedStatus
    simp only [hlook, hbt]
  obtain ⟨rec, hrec, hentry⟩ := consume_entry_after_write s hs i hi data s2
    heq fs1 f fs2 hfields
  refine ⟨rec, _, hrec, hentry, ?_, ?_⟩
  · intro hlen
    constructor
    · show decodeField s2.buf (s.slotOffset i + f.offset) f.kind
        = Val.str cps
      rw [hkind, hdec, List.take_of_length_le (le_of_eq hlen)]
    · show stTruncated (readByte s2.buf (s.slotOffset i + 8 + fs1.length))
        = false
      rw [hstat, stTruncated_writtenStatus]
      simp [hlen]
  · intro hlen
    constructor
    · show decodeField s2.buf (s.slotOffset i + f.offset) f.kind
        = Val.str (cps.take mc)
      rw [hkind, hdec]
    · show stTruncated (readByte s2.buf (s.slotOffset i + 8 + fs1.length))
        = true
      rw [hstat, stTruncated_writtenStatus]
      simp [hlen]

/-- Schema `(sf : Str[2])`. -/
def exLayoutStr : Layout := compileLayout [("sf", FieldKind.string 2)]

/-- A fresh single-slot region over `(sf : Str[2])`. -/
def exStr0 : Shm := (createShm exLayoutStr 1).getD exDummy

/-- `exStr0` after publishing the 3-code-point string "ABC". -/
def c8S2 : Shm :=
  (writeToSlot exStr0 0 [("sf", Val.str [65, 66, 67])]).getD exDummy

set_option maxRecDepth 10000 in
theorem claim_C8_witness :
    ∃ rec fr, (readFromSlot c8S2 0 false).1 = some rec ∧
      rec[(0 : Nat)]? = some fr ∧
      ([65, 66, 67].length = 2 →
        fr.value = Val.str [65, 66, 67] ∧ stTruncated fr.status = false) ∧
      ([65, 66, 67].length = 2 + 1 →
        fr.value = Val.str ([65, 66, 67].take 2) ∧
          stTruncated fr.status = true) :=
  claim_C8_string_boundary exStr0
    ⟨⟨by decide, by decide, by decide, by decide⟩, by decide, by decide⟩
    0 (by decide) [("sf", Val.str [65, 66, 67])] c8S2 (by decide)
    [] ⟨"sf", FieldKind.string 2, 16⟩ [] (by decide) 2 [65, 66, 67]
    (by decide) (by decide) (by decide) (by decide)

/-- Claim C9: the UNWRITTEN bit of every field of every slot (a) starts
true at slot initialization, (b) is cleared by the first publish that
includes the field and left as-is by a publish that omits it (so once
false it stays false), and (c) is never set back to true by a read. -/
theorem claim_C9_unwritten_lifecycle :
    (∀ L slots s0, LayoutWF L → 1 ≤ slots → createShm L slots = some s0 →
      ∀ j, j < slots → ∀ k, k < L.fields.length →
        stUnwritten (readByte s0.buf (s0.slotOffset j + 8 + k)) = true) ∧
    (∀ s, ShmWF s → ∀ i, i < s.slots →
      ∀ data s2, writeToSlot s i data = some s2 →
      ∀ fs1 f fs2, s.layout.fields = fs1 ++ f :: fs2 →
        stUnwritten (readByte s2.buf (s.slotOffset i + 8 + fs1.length))
          = if (dictLookup data f.name).isSome = true then false
            else stUnwritten
              (readByte s.buf (s.slotOffset i + 8 + fs1.length))) ∧
    (∀ s, ShmWF s → ∀ i, i < s.slots → ∀ rm q,
      stUnwritten (readByte (readFromSlot s i rm).2.buf q)
        = stUnwritten (readByte s.buf q)) := by
  refine ⟨?_, ?_, ?_⟩
  · intro L slots s0 hwf hslots hcr j hj k hk
    obtain ⟨s1, hcr1, hwf1, hsl1, hlay1, hwb1, hwbd1, hslot⟩ :=
      createShm_spec L slots hwf hslots
    rw [hcr1] at hcr
    have hs01 := Option.some.inj hcr
    subst hs01
    rw [(hslot j hj).2.2 k hk]
    decide
  · intro s hs i hi data s2 heq fs1 f fs2 hfields
    rw [writeToSlot_status s i data s2 hs hi heq fs1 f fs2 hfields]
    unfold expectedStatus
    cases hd : dictLookup data f.name with
    | none => simp [stUnwritten_clearModified]
    | some v =>
      have hfmem : f ∈ s.layout.fields := by
        rw [hfields]
        exact List.mem_append_right fs1 (List.mem_cons_self f fs2)
      obtain ⟨⟨bytes, t⟩, hbt⟩ := Option.isSome_iff_exists.mp
        (writeToSlot_encOk s i data s2 heq f hfmem v hd)
      simp only [hbt, Option.isSome_some, if_pos]
      exact stUnwritten_writtenStatus _ t
  · intro s hs i hi rm q
    have hub := slot_region_ub s hs i hi
    have hhdr := hs.1.header_ub
    have hlen : s.slotOffset i + 8 + s.layout.fields.length
        ≤ s.buf.length := by omega
    unfold readFromSlot
    simp only []
    by_cases ht : readU64 s.buf (s.slotOffset i)
        = readU64 s.buf (s.slotOffset i + s.layout.totalSize - 8)
    · rw [if_neg (not_not_intro ht)]
      cases rm
      · rfl
      · show stUnwritten (readByte (clearModifiedLoop s.buf
          (s.slotOffset i + 8) s.layout.fields.length) q) = _
        rw [clearModifiedLoop_readByte s.buf (s.slotOffset i + 8)
          s.layout.fields.length q hlen]
        split
        · exact stUnwritten_clearModified _
        · rfl
    · rw [if_pos ht]

theorem claim_C9_witness :
    stUnwritten (readByte exSingle0.buf (exSingle0.slotOffset 0 + 8 + 0))
      = true ∧
    stUnwritten (readByte exS2v.buf (exS2.slotOffset 0 + 8 + 0))
      = (if (dictLookup [("v", Val.f64 7)] "v").isSome = true then false
          else stUnwritten
            (readByte exS2.buf (exS2.slotOffset 0 + 8 + 0))) ∧
    stUnwritten (readByte (readFromSlot exS2v 0 true).2.buf 25)
      = stUnwritten (readByte exS2v.buf 25) :=
  ⟨claim_C9_unwritten_lifecycle.1 exLayoutF64 1 exSingle0
      ⟨by decide, by decide, by decide, by decide⟩ (by decide) (by decide)
      0 (by decide) 0 (by decide),
    claim_C9_unwritten_lifecycle.2.1 exS2
      ⟨⟨by decide, by decide, by decide, by decide⟩, by decide, by decide⟩
      0 (by decide) [("v", Val.f64 7)] exS2v (by decide)
      [] ⟨"v", FieldKind.scalar .f64, 16⟩
      [⟨"n", FieldKind.scalar .i32, 24⟩] (by decide),
    claim_C9_unwritten_lifecycle.2.2 exS2v
      ⟨⟨by decide, by decide, by decide, by decide⟩, by decide, by decide⟩
      0 (by decide) true 25⟩

/-- Claim C10: a single attempt on a freshly created single-slot region is
not the no-data result — it returns a record in which every field's
status byte is exactly UNWRITTEN: unwritten true, valid false, modified
false, truncated false. -/
theorem claim_C10_fresh_read (L : Layout) (hwf : LayoutWF L) (s0 : Shm)
    (hcr : createShm L 1 = some s0) :
    ∃ rec, (readSingle s0 false).1 = some rec ∧
      ∀ fr ∈ rec, fr.status = MASK_UNWRITTEN ∧
        stUnwritten fr.status = true ∧ stValid fr.status = false ∧
        stModified fr.status = false ∧ stTruncated fr.status = false := by
  obtain ⟨s1, hcr1, hwf1, hsl1, hlay1, hwb1, hwbd1, hslot⟩ :=
    createShm_spec L 1 hwf (le_refl 1)
  rw [hcr1] at hcr
  have hs01 := Option.some.inj hcr
  subst hs01
  obtain ⟨hseqb, hseqe, hstat⟩ := hslot 0 (by omega)
  have hnt := readFromSlot_not_torn s1 0 false
    (by rw [hlay1, hseqb, hseqe])
  refine ⟨_, hnt, ?_⟩
  intro fr hfr
  obtain ⟨k, hk, hst⟩ := readFieldsLoop_mem s1.buf (s1.slotOffset 0)
    (s1.slotOffset 0 + 8) s1.layout.fields 0 fr hfr
  rw [hlay1] at hk
  rw [hst]
  simp only [Nat.zero_add]
  rw [hstat k hk]
  exact ⟨rfl, by decide, by decide, by decide, by decide⟩

theorem claim_C10_witness :
    ∃ rec, (readSingle exSingle0 false).1 = some rec ∧
      ∀ fr ∈ rec, fr.status = MASK_UNWRITTEN ∧
        stUnwritten fr.status = true ∧ stValid fr.status = false ∧
        stModified fr.status = false ∧ stTruncated fr.status = false :=
  claim_C10_fresh_read exLayoutF64
    ⟨by decide, by decide, by decide, by decide⟩ exSingle0 (by decide)

end FlexShm
